import Mathlib

set_option maxHeartbeats 1600000

/-!
Shallow embedding of the two linked-list implementations of this repository:
`src/data_structures/linked_list.rs` (singly linked `LinkedList<T>`) and
`src/data_structures/linked_list2.rs` (doubly linked `LinkedList2<T>`).

Modelling conventions.

* Nodes live in a heap modelled as a total function `Nat → node`; `fresh` is the
  allocation counter, so every `Rc::new` of a node takes the address `fresh` and
  bumps the counter.  Nodes are never deallocated, mirroring `Rc` (a node stays
  alive while anything references it); unallocated addresses hold junk that is
  never reached in any statement proved below.
* A content handle `Rc<RefCell<T>>` is modelled by its allocation identity, a
  `Nat`.  `ptr::eq` on content handles is equality of these identities.  The
  stored values of type `T` play no role in any claim (all membership/removal
  is by identity), so they are not modelled; `add_raw`/`insert_raw_at` allocate
  a fresh identity from the same counter.
* `i64` arithmetic is `Int` with explicit wrapping through `i64wrap`, `usize`
  arithmetic is `Nat` with explicit wrapping mod `2^64` (release-mode Rust
  semantics; debug builds panic at exactly the points where a wrap below is a
  genuine underflow).
* Mutating operations take the state and return `Except ListOperationErr α`
  paired with the resulting state, so that paths which mutate before failing
  are represented faithfully.
* The source iterates and searches with unbounded `loop`/iterator constructs;
  these are modelled with an explicit `fuel` argument.  Every statement below
  instantiates `fuel` large enough that the loop reaches its natural exit.
-/

/-- The error enum `ListOperationErr` of `linked_list.rs`. -/
inductive ListOperationErr where
  | IndexOutOfBounds
  | OperationOnEmptyList
  | UnexpectedError
  | ElementNotFound
deriving DecidableEq

/-- `pub const UNEXPECTED_ERR: ListOperationErr = ListOperationErr::UnexpectedError`. -/
def UNEXPECTED_ERR : ListOperationErr := ListOperationErr.UnexpectedError

/-- Two to the 63. -/
def I63 : Int := 9223372036854775808

/-- Two to the 64, the modulus of `i64`/`usize` wrapping arithmetic. -/
def I64M : Int := 18446744073709551616

/-- Wrapping `i64` arithmetic: reduce an `Int` into `[-2^63, 2^63)`. -/
def i64wrap (x : Int) : Int := (x + I63) % I64M - I63

/-- Two to the 64 as a `Nat`. -/
def USZM : Nat := 18446744073709551616

/-- Wrapping `usize` increment. -/
def uszAdd1 (n : Nat) : Nat := (n + 1) % USZM

/-- Wrapping `usize` decrement; on `n = 0` this is the underflow wrap to `2^64 - 1`
(a debug build of the source panics at this point instead). -/
def uszSub1 (n : Nat) : Nat := (n + (USZM - 1)) % USZM

/-- `ListNode<T>` of `linked_list.rs`: a content handle and the optional forward
link `linked_node`, here as an optional node address. -/
structure ListNode where
  content : Nat
  linked_node : Option Nat
deriving DecidableEq

/-- Heap update for singly-linked nodes. -/
def hset1 (h : Nat → ListNode) (a : Nat) (v : ListNode) : Nat → ListNode :=
  fun x => if x = a then v else h x

/-- `LinkedList<T>` of `linked_list.rs`: `head`, `tail`, `size : i64`, together
with the node heap and the allocation counter of the model. -/
structure LinkedList where
  heap : Nat → ListNode
  fresh : Nat
  head : Option Nat
  tail : Option Nat
  size : Int

/-- `LinkedList::new()`. -/
def LinkedList.new : LinkedList :=
  { heap := fun _ => ⟨0, none⟩, fresh := 0, head := none, tail := none, size := 0 }

/-- `LinkedList::index_check`: error unless `0 <= index < size`. -/
def LinkedList.index_check (self : LinkedList) (index : Int) :
    Except ListOperationErr Unit :=
  if index < 0 ∨ self.size ≤ index then .error .IndexOutOfBounds else .ok ()

/-- One pass of the `for _ in 0..index` walk of `get_node_at`:
`cur.replace(cur.clone().ok_or(UNEXPECTED_ERR)?.borrow().linked_node.clone().ok_or(UNEXPECTED_ERR)?)`,
iterated `n` times. -/
def sllAdvance (h : Nat → ListNode) : Option Nat → Nat → Except ListOperationErr (Option Nat)
  | cur, 0 => .ok cur
  | cur, n + 1 =>
    match cur with
    | none => .error .UnexpectedError
    | some c =>
      match (h c).linked_node with
      | none => .error .UnexpectedError
      | some nxt => sllAdvance h (some nxt) n

/-- `LinkedList::get_node_at`. -/
def LinkedList.get_node_at (self : LinkedList) (index : Int) :
    Except ListOperationErr Nat :=
  match self.index_check index with
  | .error e => .error e
  | .ok _ =>
    match sllAdvance self.heap self.head index.toNat with
    | .error e => .error e
    | .ok none => .error .UnexpectedError
    | .ok (some c) => .ok c

/-- `LinkedList::shift`. -/
def LinkedList.shift (self : LinkedList) :
    Except ListOperationErr Nat × LinkedList :=
  match self.head with
  | none => (.error .OperationOnEmptyList, self)
  | some hd =>
    match (self.heap hd).linked_node with
    | some n =>
      (.ok (self.heap hd).content,
        { self with size := i64wrap (self.size - 1), head := some n })
    | none =>
      match self.tail with
      | some t =>
        (.ok (self.heap t).content,
          { self with size := i64wrap (self.size - 1), head := none, tail := none })
      | none =>
        (.error .UnexpectedError,
          { self with size := i64wrap (self.size - 1), head := none })

/-- `LinkedList::pop`.  On `size != 1` the source first replaces `tail` with the
node at `size - 2` (the bounds check of `get_node_at` firing before any
mutation), then `take`s that node's forward link. -/
def LinkedList.pop (self : LinkedList) :
    Except ListOperationErr Nat × LinkedList :=
  if self.size = 1 then
    match self.tail with
    | some t =>
      (.ok (self.heap t).content,
        { self with size := i64wrap (self.size - 1), head := none, tail := none })
    | none =>
      (.error .UnexpectedError,
        { self with size := i64wrap (self.size - 1), head := none })
  else
    match self.get_node_at (self.size - 2) with
    | .error e => (.error e, self)
    | .ok nn =>
      let self1 : LinkedList := { self with tail := some nn }
      let taken := (self1.heap nn).linked_node
      let self2 : LinkedList :=
        { self1 with heap := hset1 self1.heap nn ⟨(self1.heap nn).content, none⟩ }
      match taken with
      | none => (.error .UnexpectedError, self2)
      | some m =>
        (.ok (self2.heap m).content, { self2 with size := i64wrap (self2.size - 1) })

/-- `List::add` for `LinkedList`: new node at the tail (`ListNode::link_to` sets
the old tail's forward link to the new node in both of its branches). -/
def LinkedList.add (self : LinkedList) (item : Nat) : LinkedList :=
  let node := self.fresh
  let h0 := hset1 self.heap node ⟨item, none⟩
  match self.tail with
  | some t =>
    { self with
      heap := hset1 h0 t ⟨(h0 t).content, some node⟩,
      fresh := self.fresh + 1,
      tail := some node,
      size := i64wrap (self.size + 1) }
  | none =>
    { self with
      heap := h0,
      fresh := self.fresh + 1,
      head := some node,
      tail := some node,
      size := i64wrap (self.size + 1) }

/-- `List::add_raw` for `LinkedList`: allocate a fresh content handle, then `add`. -/
def LinkedList.add_raw (self : LinkedList) : LinkedList :=
  LinkedList.add { self with fresh := self.fresh + 1 } self.fresh

/-- `List::insert_at` for `LinkedList`.  Note: the source increments `size` only
through the `add` call of the `index == size - 1` branch; the `index == 0` and
interior branches leave `size` untouched. -/
def LinkedList.insert_at (self : LinkedList) (item : Nat) (index : Int) :
    Except ListOperationErr Unit × LinkedList :=
  match self.index_check index with
  | .error e => (.error e, self)
  | .ok _ =>
    if index = 0 then
      let node := self.fresh
      (.ok (),
        { self with
          heap := hset1 self.heap node ⟨item, self.head⟩,
          fresh := self.fresh + 1,
          head := some node })
    else if index = self.size - 1 then
      (.ok (), self.add item)
    else
      match self.get_node_at (index - 1) with
      | .error e => (.error e, self)
      | .ok prev =>
        match (self.heap prev).linked_node with
        | none => (.error .UnexpectedError, self)
        | some n0 =>
          let node := self.fresh
          let h0 := hset1 self.heap node ⟨item, some n0⟩
          (.ok (),
            { self with
              heap := hset1 h0 prev ⟨(h0 prev).content, some node⟩,
              fresh := self.fresh + 1 })

/-- `List::insert_raw_at` for `LinkedList`. -/
def LinkedList.insert_raw_at (self : LinkedList) (index : Int) :
    Except ListOperationErr Unit × LinkedList :=
  LinkedList.insert_at { self with fresh := self.fresh + 1 } self.fresh index

/-- `List::is_empty` for `LinkedList`. -/
def LinkedList.is_empty (self : LinkedList) : Bool := self.size < 1

/-- The loop of `LinkedList::clone`: walk the source chain, `add`ing each
content handle to the clone being built.  `fuel` bounds the unbounded `loop`. -/
def sllCloneLoop (h : Nat → ListNode) : LinkedList → Option Nat → Nat → LinkedList
  | acc, _, 0 => acc
  | acc, none, _ => acc
  | acc, some c, n + 1 => sllCloneLoop h (acc.add (h c).content) ((h c).linked_node) n

/-- `Clone for LinkedList`: a structural copy sharing content handles. -/
def LinkedList.clone (self : LinkedList) (fuel : Nat) : LinkedList :=
  sllCloneLoop self.heap LinkedList.new self.head fuel

/-- Advancing the `LinkedListIterator` `n` times (`iter.next()` leaves an
exhausted iterator at `None`). -/
def sllIterSkip (h : Nat → ListNode) : Option Nat → Nat → Option Nat
  | cur, 0 => cur
  | cur, n + 1 =>
    match cur with
    | none => sllIterSkip h none n
    | some c => sllIterSkip h (h c).linked_node n

/-- `List::get` for `LinkedList`: bounds check, clone the list, skip `index`
iterator steps and return the next item. -/
def LinkedList.get (self : LinkedList) (index : Int) (fuel : Nat) :
    Except ListOperationErr Nat :=
  match self.index_check index with
  | .error e => .error e
  | .ok _ =>
    let cl := self.clone fuel
    match sllIterSkip cl.heap cl.head index.toNat with
    | none => .error .UnexpectedError
    | some c => .ok (cl.heap c).content

/-- The `for i in clone` accumulation of `List::contains`: `result` is or-ed
with the identity comparison `ptr::eq(item, i)` at every element. -/
def sllContainsLoop (h : Nat → ListNode) (item : Nat) :
    Option Nat → Nat → Bool → Bool
  | _, 0, result => result
  | none, _, result => result
  | some c, n + 1, result =>
    sllContainsLoop h item ((h c).linked_node) n (result || ((h c).content == item))

/-- `List::contains` for `LinkedList`. -/
def LinkedList.contains (self : LinkedList) (item : Nat) (fuel : Nat) : Bool :=
  let cl := self.clone fuel
  sllContainsLoop cl.heap item cl.head fuel false

/-- The search `loop` of `LinkedList::remove`: starting at the head it looks
for the node whose successor's content is identity-equal to `item`.  When the
end of the chain is reached the source's `.ok_or(UNEXPECTED_ERR)?` on the
missing forward link aborts the loop, so an absent item surfaces as
`UnexpectedError` and the `ElementNotFound` branch after the loop is dead. -/
def sllFindPrevLoop (h : Nat → ListNode) (item : Nat) :
    Option Nat → Nat → Except ListOperationErr (Option Nat)
  | _, 0 => .error .UnexpectedError
  | cur, n + 1 =>
    match cur with
    | none => .error .UnexpectedError
    | some c =>
      match (h c).linked_node with
      | none => .error .UnexpectedError
      | some nxt =>
        if (h nxt).content = item then .ok (some c)
        else sllFindPrevLoop h item (some nxt) n

/-- `List::remove` for `LinkedList`.  When the found node is the tail the
source merely replaces `self.tail` with the predecessor, without clearing the
predecessor's forward link. -/
def LinkedList.remove (self : LinkedList) (item : Nat) (fuel : Nat) :
    Except ListOperationErr Unit × LinkedList :=
  if self.size < 1 then (.error .UnexpectedError, self)
  else
    match self.head with
    | none => (.error .UnexpectedError, self)
    | some hd =>
      if (self.heap hd).content = item then
        let self1 : LinkedList :=
          match (self.heap hd).linked_node with
          | some l => { self with head := some l }
          | none => { self with head := none }
        (.ok (), { self1 with size := i64wrap (self1.size - 1) })
      else
        match sllFindPrevLoop self.heap item (some hd) fuel with
        | .error e => (.error e, self)
        | .ok none => (.error .ElementNotFound, self)
        | .ok (some prev) =>
          match (self.heap prev).linked_node with
          | none => (.error .UnexpectedError, self)
          | some target =>
            match self.tail with
            | none => (.error .UnexpectedError, self)
            | some t =>
              if target = t then
                (.ok (), { self with tail := some prev, size := i64wrap (self.size - 1) })
              else
                match (self.heap target).linked_node with
                | none => (.error .UnexpectedError, self)
                | some after =>
                  (.ok (),
                    { self with
                      heap := hset1 self.heap prev ⟨(self.heap prev).content, some after⟩,
                      size := i64wrap (self.size - 1) })

/-- `List::remove_at` for `LinkedList`. -/
def LinkedList.remove_at (self : LinkedList) (index : Int) :
    Except ListOperationErr Nat × LinkedList :=
  match self.index_check index with
  | .error e => (.error e, self)
  | .ok _ =>
    if index = 0 then self.shift
    else if index = self.size - 1 then self.pop
    else
      match self.get_node_at (index - 1) with
      | .error e => (.error e, self)
      | .ok n =>
        match self.get_node_at index with
        | .error e => (.error e, self)
        | .ok atIdx =>
          let n_after := (self.heap atIdx).linked_node
          let self1 : LinkedList := { self with size := i64wrap (self.size - 1) }
          match (self1.heap n).linked_node with
          | none => (.error .UnexpectedError, self1)
          | some m =>
            match n_after with
            | some nxt =>
              (.ok (self1.heap m).content,
                { self1 with heap := hset1 self1.heap n ⟨(self1.heap n).content, some nxt⟩ })
            | none => (.ok (self1.heap m).content, self1)

/-- The address chain obtained by following forward links from `cur`
(`fuel`-bounded); this is the node sequence the iterator traverses. -/
def sllChain (h : Nat → ListNode) : Option Nat → Nat → List Nat
  | _, 0 => []
  | none, _ => []
  | some c, n + 1 => c :: sllChain h ((h c).linked_node) n

/-- The content handles produced by a full forward iteration of the list. -/
def LinkedList.elems (self : LinkedList) (fuel : Nat) : List Nat :=
  (sllChain self.heap self.head fuel).map fun a => (self.heap a).content

/-- `ListNode2<T>` of `linked_list2.rs`: content handle plus the link pair
`linked_nodes`; field `prev` is `linked_nodes.0` (backward) and `next` is
`linked_nodes.1` (forward). -/
structure ListNode2 where
  content : Nat
  prev : Option Nat
  next : Option Nat
deriving DecidableEq

/-- Heap update for doubly-linked nodes. -/
def hset2 (h : Nat → ListNode2) (a : Nat) (v : ListNode2) : Nat → ListNode2 :=
  fun x => if x = a then v else h x

/-- `ListNode2::break_link0` on the node at `a`: take `a`'s backward link and,
when present, clear the forward link of the node it pointed to. -/
def break_link0 (h : Nat → ListNode2) (a : Nat) : Option Nat × (Nat → ListNode2) :=
  let n0 := (h a).prev
  let h1 := hset2 h a ⟨(h a).content, none, (h a).next⟩
  match n0 with
  | none => (none, h1)
  | some b => (some b, hset2 h1 b ⟨(h1 b).content, (h1 b).prev, none⟩)

/-- `ListNode2::break_link1` on the node at `a`: take `a`'s forward link and,
when present, clear the backward link of the node it pointed to. -/
def break_link1 (h : Nat → ListNode2) (a : Nat) : Option Nat × (Nat → ListNode2) :=
  let n1 := (h a).next
  let h1 := hset2 h a ⟨(h a).content, (h a).prev, none⟩
  match n1 with
  | none => (none, h1)
  | some b => (some b, hset2 h1 b ⟨(h1 b).content, none, (h1 b).next⟩)

/-- `LinkedList2::link_nodes node0 node1`: break both nodes' facing links, then
set `node0.next := node1` and `node1.prev := node0`, returning the detached
former neighbours. -/
def link_nodes (h : Nat → ListNode2) (node0 node1 : Nat) :
    (Option Nat × Option Nat) × (Nat → ListNode2) :=
  let r0 := break_link1 h node0
  let r1 := break_link0 r0.2 node1
  let h3 := hset2 r1.2 node0 ⟨(r1.2 node0).content, (r1.2 node0).prev, some node1⟩
  let h4 := hset2 h3 node1 ⟨(h3 node1).content, some node0, (h3 node1).next⟩
  ((r0.1, r1.1), h4)

/-- `LinkedList2<T>` of `linked_list2.rs`: `head`, `tail`, `size : usize`,
together with the node heap and the allocation counter of the model. -/
structure LinkedList2 where
  heap : Nat → ListNode2
  fresh : Nat
  head : Option Nat
  tail : Option Nat
  size : Nat

/-- `LinkedList2::new()`. -/
def LinkedList2.new : LinkedList2 :=
  { heap := fun _ => ⟨0, none, none⟩, fresh := 0, head := none, tail := none, size := 0 }

/-- `LinkedList2::index_check`: error unless `index < size` (`index : usize`). -/
def LinkedList2.index_check (self : LinkedList2) (index : Nat) :
    Except ListOperationErr Unit :=
  if self.size ≤ index then .error .IndexOutOfBounds else .ok ()

/-- `LinkedList2::shift`. -/
def LinkedList2.shift (self : LinkedList2) :
    Except ListOperationErr Nat × LinkedList2 :=
  match self.head with
  | none => (.error .OperationOnEmptyList, self)
  | some hd =>
    match (self.heap hd).next with
    | some n =>
      let tmp := (self.heap hd).content
      let r := break_link0 self.heap n
      (.ok tmp, { self with heap := r.2, head := some n, size := uszSub1 self.size })
    | none =>
      match self.tail with
      | some t =>
        (.ok (self.heap t).content,
          { self with head := none, tail := none, size := uszSub1 self.size })
      | none =>
        (.error .UnexpectedError, { self with head := none, size := uszSub1 self.size })

/-- `LinkedList2::pop`. -/
def LinkedList2.pop (self : LinkedList2) :
    Except ListOperationErr Nat × LinkedList2 :=
  match self.tail with
  | none => (.error .OperationOnEmptyList, self)
  | some tl =>
    match (self.heap tl).prev with
    | some n =>
      let tmp := (self.heap tl).content
      let r := break_link1 self.heap n
      (.ok tmp, { self with heap := r.2, tail := some n, size := uszSub1 self.size })
    | none =>
      match self.tail with
      | some t =>
        (.ok (self.heap t).content,
          { self with head := none, tail := none, size := uszSub1 self.size })
      | none =>
        (.error .UnexpectedError, { self with head := none, size := uszSub1 self.size })

/-- One pass of the `for _ in 0..index` walk of `LinkedList2::get_node_at`. -/
def dllAdvance (h : Nat → ListNode2) : Option Nat → Nat → Except ListOperationErr (Option Nat)
  | cur, 0 => .ok cur
  | cur, n + 1 =>
    match cur with
    | none => .error .UnexpectedError
    | some c =>
      match (h c).next with
      | none => .error .UnexpectedError
      | some nxt => dllAdvance h (some nxt) n

/-- `LinkedList2::get_node_at`. -/
def LinkedList2.get_node_at (self : LinkedList2) (index : Nat) :
    Except ListOperationErr Nat :=
  match self.index_check index with
  | .error e => .error e
  | .ok _ =>
    match dllAdvance self.heap self.head index with
    | .error e => .error e
    | .ok none => .error .UnexpectedError
    | .ok (some c) => .ok c

/-- `List::add` for `LinkedList2`: allocate a node and `link_nodes` it after
the old tail. -/
def LinkedList2.add (self : LinkedList2) (item : Nat) : LinkedList2 :=
  let node := self.fresh
  let h0 := hset2 self.heap node ⟨item, none, none⟩
  match self.tail with
  | some t =>
    let r := link_nodes h0 t node
    { self with
      heap := r.2, fresh := self.fresh + 1, tail := some node,
      size := uszAdd1 self.size }
  | none =>
    { self with
      heap := h0, fresh := self.fresh + 1, head := some node, tail := some node,
      size := uszAdd1 self.size }

/-- `List::add_raw` for `LinkedList2`. -/
def LinkedList2.add_raw (self : LinkedList2) : LinkedList2 :=
  LinkedList2.add { self with fresh := self.fresh + 1 } self.fresh

/-- `List::insert_at` for `LinkedList2`.  In the `index == 0` branch the old
head's backward link is left untouched (it stays `none` instead of pointing at
the new node); in the interior branch `break_link0` clears `orig`'s backward
link, and `link_nodes prev node` never restores `orig.prev` either. -/
def LinkedList2.insert_at (self : LinkedList2) (item : Nat) (index : Nat) :
    Except ListOperationErr Unit × LinkedList2 :=
  match self.index_check index with
  | .error e => (.error e, self)
  | .ok _ =>
    if index = 0 then
      let node := self.fresh
      (.ok (),
        { self with
          heap := hset2 self.heap node ⟨item, none, self.head⟩,
          fresh := self.fresh + 1,
          head := some node,
          size := uszAdd1 self.size })
    else if index = self.size - 1 then
      (.ok (), self.add item)
    else
      match self.get_node_at index with
      | .error e => (.error e, self)
      | .ok orig =>
        let r := break_link0 self.heap orig
        match r.1 with
        | none => (.error .UnexpectedError, { self with heap := r.2 })
        | some prev =>
          let node := self.fresh
          let h2 := hset2 r.2 node ⟨item, none, some orig⟩
          let r2 := link_nodes h2 prev node
          (.ok (),
            { self with heap := r2.2, fresh := self.fresh + 1, size := uszAdd1 self.size })

/-- `List::insert_raw_at` for `LinkedList2`. -/
def LinkedList2.insert_raw_at (self : LinkedList2) (index : Nat) :
    Except ListOperationErr Unit × LinkedList2 :=
  LinkedList2.insert_at { self with fresh := self.fresh + 1 } self.fresh index

/-- `List::is_empty` for `LinkedList2`. -/
def LinkedList2.is_empty (self : LinkedList2) : Bool := self.size < 1

/-- The loop of `Clone for LinkedList2`. -/
def dllCloneLoop (h : Nat → ListNode2) : LinkedList2 → Option Nat → Nat → LinkedList2
  | acc, _, 0 => acc
  | acc, none, _ => acc
  | acc, some c, n + 1 => dllCloneLoop h (acc.add (h c).content) ((h c).next) n

/-- `Clone for LinkedList2`: a structural copy sharing content handles. -/
def LinkedList2.clone (self : LinkedList2) (fuel : Nat) : LinkedList2 :=
  dllCloneLoop self.heap LinkedList2.new self.head fuel

/-- Advancing the `LinkedList2Iterator` `n` times. -/
def dllIterSkip (h : Nat → ListNode2) : Option Nat → Nat → Option Nat
  | cur, 0 => cur
  | cur, n + 1 =>
    match cur with
    | none => dllIterSkip h none n
    | some c => dllIterSkip h ((h c).next) n

/-- `List::get` for `LinkedList2`. -/
def LinkedList2.get (self : LinkedList2) (index : Nat) (fuel : Nat) :
    Except ListOperationErr Nat :=
  match self.index_check index with
  | .error e => .error e
  | .ok _ =>
    let cl := self.clone fuel
    match dllIterSkip cl.heap cl.head index with
    | none => .error .UnexpectedError
    | some c => .ok (cl.heap c).content

/-- The `for i in clone` accumulation of `List::contains` for `LinkedList2`. -/
def dllContainsLoop (h : Nat → ListNode2) (item : Nat) :
    Option Nat → Nat → Bool → Bool
  | _, 0, result => result
  | none, _, result => result
  | some c, n + 1, result =>
    dllContainsLoop h item ((h c).next) n (result || ((h c).content == item))

/-- `List::contains` for `LinkedList2`. -/
def LinkedList2.contains (self : LinkedList2) (item : Nat) (fuel : Nat) : Bool :=
  let cl := self.clone fuel
  dllContainsLoop cl.heap item cl.head fuel false

/-- The search `loop` of `LinkedList2::remove`, started at the successor of the
head.  It yields `ok (some target)` on an identity match, `ok none` when the
chain ends without a match (the `None => break` leaves `target_node` as
`Err(ElementNotFound)`), and `UnexpectedError` when `cur` is `None` at the top
of the loop (the case `head.next == None`). -/
def dllFindLoop (h : Nat → ListNode2) (item : Nat) :
    Option Nat → Nat → Except ListOperationErr (Option Nat)
  | _, 0 => .error .UnexpectedError
  | cur, n + 1 =>
    match cur with
    | none => .error .UnexpectedError
    | some c =>
      if (h c).content = item then .ok (some c)
      else
        match (h c).next with
        | some nxt => dllFindLoop h item (some nxt) n
        | none => .ok none

/-- `List::remove` for `LinkedList2`.  When the head matches, the source runs
`let _ = self.shift();` (which already decrements `size`) and then decrements
`size` once more.  When the found node is the tail, the source replaces `tail`
with the old tail's backward neighbour and calls `break_link1` on the old tail
(whose forward link is already `None`, so nothing is severed). -/
def LinkedList2.remove (self : LinkedList2) (item : Nat) (fuel : Nat) :
    Except ListOperationErr Unit × LinkedList2 :=
  if self.size < 1 then (.error .UnexpectedError, self)
  else
    match self.head with
    | none => (.error .UnexpectedError, self)
    | some hd =>
      if (self.heap hd).content = item then
        let self1 := (self.shift).2
        (.ok (), { self1 with size := uszSub1 self1.size })
      else
        match dllFindLoop self.heap item ((self.heap hd).next) fuel with
        | .error e => (.error e, self)
        | .ok none => (.error .ElementNotFound, self)
        | .ok (some target) =>
          match self.tail with
          | none => (.error .UnexpectedError, self)
          | some t =>
            if t = target then
              match (self.heap t).prev with
              | none => (.error .UnexpectedError, self)
              | some newTail =>
                let r := break_link1 self.heap t
                (.ok (),
                  { self with heap := r.2, tail := some newTail, size := uszSub1 self.size })
            else
              match (self.heap target).prev with
              | none => (.error .UnexpectedError, self)
              | some n0 =>
                match (self.heap target).next with
                | none => (.error .UnexpectedError, self)
                | some n1 =>
                  let r := link_nodes self.heap n0 n1
                  (.ok (), { self with heap := r.2, size := uszSub1 self.size })

/-- `List::remove_at` for `LinkedList2`. -/
def LinkedList2.remove_at (self : LinkedList2) (index : Nat) :
    Except ListOperationErr Nat × LinkedList2 :=
  match self.index_check index with
  | .error e => (.error e, self)
  | .ok _ =>
    if index = 0 then self.shift
    else if index = self.size - 1 then self.pop
    else
      match self.get_node_at index with
      | .error e => (.error e, self)
      | .ok n =>
        let result := (self.heap n).content
        match (self.heap n).prev with
        | none => (.error .UnexpectedError, self)
        | some n0 =>
          match (self.heap n).next with
          | none => (.error .UnexpectedError, self)
          | some n1 =>
            let r := link_nodes self.heap n0 n1
            (.ok result, { self with heap := r.2, size := uszSub1 self.size })

/-- The address chain obtained by following forward links from `cur`
(`fuel`-bounded). -/
def dllChain (h : Nat → ListNode2) : Option Nat → Nat → List Nat
  | _, 0 => []
  | none, _ => []
  | some c, n + 1 => c :: dllChain h ((h c).next) n

/-- The content handles produced by a full forward iteration of the list. -/
def LinkedList2.elems (self : LinkedList2) (fuel : Nat) : List Nat :=
  (dllChain self.heap self.head fuel).map fun a => (self.heap a).content

/-- The singly-linked list built by one `add_raw` from `new`: one element, whose
content handle has identity `0`, stored in the node at address `1`. -/
def sllOne : LinkedList := LinkedList.new.add_raw

/-- `sllOne` after a second `add_raw`: content handles `[0, 2]` in nodes `1, 3`. -/
def sllTwo : LinkedList := sllOne.add_raw

/-- `sllTwo` after a third `add_raw`: content handles `[0, 2, 4]` in nodes `1, 3, 5`. -/
def sllThree : LinkedList := sllTwo.add_raw

/-- The doubly-linked list built by one `add_raw` from `new`. -/
def dllOne : LinkedList2 := LinkedList2.new.add_raw

/-- `dllOne` after a second `add_raw`: content handles `[0, 2]` in nodes `1, 3`. -/
def dllTwo : LinkedList2 := dllOne.add_raw

/-- `dllTwo` after a third `add_raw`: content handles `[0, 2, 4]` in nodes `1, 3, 5`. -/
def dllThree : LinkedList2 := dllTwo.add_raw

/-- C1.  The size invariant is violated by the code: on the one-element
singly-linked list, `insert_raw_at(_, 0)` succeeds, a full forward iteration
then yields two elements, yet `size` is still `1` — the `index == 0` branch of
`LinkedList::insert_at` never increments `size`. -/
theorem claim_C1 :
    (sllOne.insert_raw_at 0).1 = .ok () ∧
    ((sllOne.insert_raw_at 0).2.elems 4).length = 2 ∧
    (sllOne.insert_raw_at 0).2.size = 1 := by
  refine ⟨rfl, by decide, by decide⟩

/-- C2.  The symmetric-link invariant is violated by the code: after
`insert_raw_at(_, 0)` on a one-element doubly-linked list, the new head (node
`3`) has forward link to node `1`, but node `1`'s backward link is still `none`
rather than `some 3` — the `index == 0` branch of `LinkedList2::insert_at`
never sets the old head's backward link. -/
theorem claim_C2 :
    (dllOne.insert_raw_at 0).1 = .ok () ∧
    (dllOne.insert_raw_at 0).2.head = some 3 ∧
    ((dllOne.insert_raw_at 0).2.heap 3).next = some 1 ∧
    ((dllOne.insert_raw_at 0).2.heap 1).prev = none := by
  refine ⟨rfl, by decide, by decide, by decide⟩

/-- C4.  The singly-linked reachability invariant is violated by the code after
`remove` of the tail element: on the list with content handles `[0, 2]`,
`remove(2)` succeeds and sets `tail` to node `1`, but node `1`'s forward link
still points at the removed node `3`, so iteration still yields both elements
while `size` is `1`, and the node `tail` points to does not have an empty
forward link. -/
theorem claim_C4 :
    (sllTwo.remove 2 4).1 = .ok () ∧
    (sllTwo.remove 2 4).2.size = 1 ∧
    (sllTwo.remove 2 4).2.tail = some 1 ∧
    ((sllTwo.remove 2 4).2.heap 1).linked_node = some 3 ∧
    (sllTwo.remove 2 4).2.elems 4 = [0, 2] := by
  refine ⟨rfl, by decide, by decide, by decide, by decide⟩

/-- C10.  The doubly-linked `remove` decrements the unsigned `size` twice when
the head matches — once inside the `shift()` call and once after it — so
removing the sole element of a one-element list executes the second decrement
while `size == 0`: the `usize` underflows (wrapping to `2^64 - 1`; a debug
build panics at this subtraction), instead of leaving `size == 0`. -/
theorem claim_C10 :
    (dllOne.remove 0 4).1 = .ok () ∧
    (dllOne.remove 0 4).2.size = USZM - 1 := by
  refine ⟨rfl, by decide⟩

/-- C3 counterexample.  On the doubly-linked list `[0, 2, 4]`,
`insert_at(99, 2)` (with `2 = size - 1`) succeeds, but `get(2)` afterwards
returns the old element `4`, not the inserted handle `99`: the
`index == size - 1` branch appends after the tail instead of inserting at
position `size - 1`. -/
theorem counterexample_C3 :
    (dllThree.insert_at 99 2).1 = .ok () ∧
    (dllThree.insert_at 99 2).2.get 2 20 = .ok 4 ∧
    (Except.ok 4 : Except ListOperationErr Nat) ≠ .ok 99 := by
  refine ⟨rfl, rfl, by simp⟩

/-- C5 counterexample.  `remove` on an empty singly-linked list (size `0`)
fails with `UnexpectedError`, not with `OperationOnEmptyList` as claimed: the
`is_empty` branch of `LinkedList::remove` returns `Err(UNEXPECTED_ERR)`. -/
theorem counterexample_C5 :
    (LinkedList.new.remove 0 1).1 = .error .UnexpectedError ∧
    ListOperationErr.UnexpectedError ≠ ListOperationErr.OperationOnEmptyList := by
  refine ⟨rfl, by simp⟩

/-- C7 counterexample.  A first `insert_at(item, 0)` on an empty list does not
succeed: `index_check` rejects `index = 0` against `size = 0` with
`IndexOutOfBounds` in both implementations, so only `add` can leave the Empty
state. -/
theorem counterexample_C7 :
    (LinkedList.new.insert_at 7 0).1 = .error .IndexOutOfBounds ∧
    (LinkedList2.new.insert_at 7 0).1 = .error .IndexOutOfBounds := by
  refine ⟨rfl, rfl⟩

/-- C8 counterexample.  `pop()` on the empty singly-linked list fails with
`IndexOutOfBounds`, not with an internal `UnexpectedError` as claimed: the
non-singleton branch of `LinkedList::pop` calls `get_node_at(size - 2)`, whose
bounds check fires on `-2`. -/
theorem counterexample_C8 :
    LinkedList.new.pop.1 = .error .IndexOutOfBounds ∧
    ListOperationErr.IndexOutOfBounds ≠ ListOperationErr.UnexpectedError := by
  refine ⟨rfl, by simp⟩

theorem i64wrap_eq_self {x : Int} (h0 : -I63 ≤ x) (h1 : x < I63) : i64wrap x = x := by
  unfold i64wrap I63 I64M at *
  omega

theorem uszAdd1_eq {n : Nat} (h : n + 1 < USZM) : uszAdd1 n = n + 1 := by
  unfold uszAdd1 USZM at *
  omega

theorem uszSub1_eq {n : Nat} (h0 : 1 ≤ n) (h1 : n < USZM) : uszSub1 n = n - 1 := by
  unfold uszSub1 USZM at *
  omega

@[simp] theorem hset1_same (h : Nat → ListNode) (a : Nat) (v : ListNode) :
    hset1 h a v a = v := by
  simp [hset1]

theorem hset1_ne (h : Nat → ListNode) (a : Nat) (v : ListNode) {b : Nat} (hb : b ≠ a) :
    hset1 h a v b = h b := by
  simp [hset1, hb]

@[simp] theorem hset2_same (h : Nat → ListNode2) (a : Nat) (v : ListNode2) :
    hset2 h a v a = v := by
  simp [hset2]

theorem hset2_ne (h : Nat → ListNode2) (a : Nat) (v : ListNode2) {b : Nat} (hb : b ≠ a) :
    hset2 h a v b = h b := by
  simp [hset2, hb]

/-- Chain-segment predicate for the singly-linked heap: starting from `cur`,
following forward links passes exactly through the addresses of `l` and then
stands at `k`. -/
def sllSeg (h : Nat → ListNode) : Option Nat → List Nat → Option Nat → Bool
  | cur, [], k => cur == k
  | cur, a :: l, k => cur == some a && sllSeg h ((h a).linked_node) l k

@[simp] theorem sllSeg_nil (h : Nat → ListNode) (cur k : Option Nat) :
    sllSeg h cur [] k = (cur == k) := rfl

@[simp] theorem sllSeg_cons (h : Nat → ListNode) (cur k : Option Nat) (a : Nat) (l : List Nat) :
    sllSeg h cur (a :: l) k = (cur == some a && sllSeg h ((h a).linked_node) l k) := rfl

theorem sllSeg_append {h : Nat → ListNode} {cur m k : Option Nat} {l₁ l₂ : List Nat}
    (h1 : sllSeg h cur l₁ m = true) (h2 : sllSeg h m l₂ k = true) :
    sllSeg h cur (l₁ ++ l₂) k = true := by
  induction l₁ generalizing cur with
  | nil => simp_all
  | cons a l ih =>
    simp only [List.cons_append, sllSeg_cons, Bool.and_eq_true, beq_iff_eq] at h1 ⊢
    exact ⟨h1.1, ih h1.2⟩

theorem sllSeg_split {h : Nat → ListNode} {cur k : Option Nat} {l₁ l₂ : List Nat}
    (hs : sllSeg h cur (l₁ ++ l₂) k = true) :
    ∃ m, sllSeg h cur l₁ m = true ∧ sllSeg h m l₂ k = true := by
  induction l₁ generalizing cur with
  | nil => exact ⟨cur, by simp, by simpa using hs⟩
  | cons a l ih =>
    simp only [List.cons_append, sllSeg_cons, Bool.and_eq_true, beq_iff_eq] at hs
    obtain ⟨m, hm1, hm2⟩ := ih hs.2
    exact ⟨m, by simp [hs.1, hm1], hm2⟩

theorem sllSeg_congr {h h' : Nat → ListNode} {cur k : Option Nat} {l : List Nat}
    (hagree : ∀ a ∈ l, (h' a).linked_node = (h a).linked_node) :
    sllSeg h' cur l k = sllSeg h cur l k := by
  induction l generalizing cur with
  | nil => rfl
  | cons a l ih =>
    simp only [sllSeg_cons, hagree a (by simp)]
    rw [ih fun b hb => hagree b (by simp [hb])]

theorem sllChain_of_seg {h : Nat → ListNode} {cur : Option Nat} {l : List Nat}
    (hs : sllSeg h cur l none = true) :
    ∀ fuel, l.length ≤ fuel → sllChain h cur fuel = l := by
  induction l generalizing cur with
  | nil =>
    intro fuel _
    simp only [sllSeg_nil, beq_iff_eq] at hs
    subst hs
    cases fuel <;> rfl
  | cons a l ih =>
    intro fuel hf
    simp only [sllSeg_cons, Bool.and_eq_true, beq_iff_eq] at hs
    obtain ⟨rfl, hs2⟩ := hs
    cases fuel with
    | zero => simp at hf
    | succ n => simpa [sllChain] using ih hs2 n (by simpa using hf)

theorem sllAdvance_seg {h : Nat → ListNode} {cur : Option Nat} {A : List Nat} {b : Nat}
    (hs : sllSeg h cur A (some b) = true) :
    sllAdvance h cur A.length = .ok (some b) := by
  induction A generalizing cur with
  | nil =>
    simp only [sllSeg_nil, beq_iff_eq] at hs
    subst hs
    rfl
  | cons a A ih =>
    simp only [sllSeg_cons, Bool.and_eq_true, beq_iff_eq] at hs
    obtain ⟨rfl, hs2⟩ := hs
    have hnext : ∃ x, (h a).linked_node = some x := by
      cases A with
      | nil => exact ⟨b, by simpa using hs2⟩
      | cons a' A' =>
        simp only [sllSeg_cons, Bool.and_eq_true, beq_iff_eq] at hs2
        exact ⟨a', hs2.1⟩
    obtain ⟨x, hx⟩ := hnext
    rw [hx] at hs2
    simpa [List.length_cons, sllAdvance, hx] using ih hs2

theorem sllIterSkip_seg {h : Nat → ListNode} {cur m : Option Nat} {A : List Nat}
    (hs : sllSeg h cur A m = true) :
    sllIterSkip h cur A.length = m := by
  induction A generalizing cur with
  | nil =>
    simp only [sllSeg_nil, beq_iff_eq] at hs
    subst hs
    rfl
  | cons a A ih =>
    simp only [sllSeg_cons, Bool.and_eq_true, beq_iff_eq] at hs
    obtain ⟨rfl, hs2⟩ := hs
    simpa [sllIterSkip] using ih hs2

/-- Content handles held by the nodes of an address list. -/
def contentsOf1 (h : Nat → ListNode) (l : List Nat) : List Nat :=
  l.map fun a => (h a).content

theorem contentsOf1_congr {h h' : Nat → ListNode} {l : List Nat}
    (hagree : ∀ a ∈ l, (h' a).content = (h a).content) :
    contentsOf1 h' l = contentsOf1 h l := by
  unfold contentsOf1
  exact List.map_congr_left hagree

/-- Well-formedness of a singly-linked list state: `l` is the node chain from
`head`, it ends at `tail`, `size` counts it, addresses are distinct and below
the allocation counter, and the length is within `i64` range. -/
def WF1 (st : LinkedList) (l : List Nat) : Prop :=
  sllSeg st.heap st.head l none = true ∧
  st.tail = l.getLast? ∧
  st.size = (l.length : Int) ∧
  l.Nodup ∧
  (∀ a ∈ l, a < st.fresh) ∧
  (l.length : Int) < I63

theorem sll_add_eq_of_tail {st : LinkedList} {t : Nat} (ht : st.tail = some t)
    (htf : t ≠ st.fresh) (x : Nat) :
    st.add x =
      { st with
        heap := hset1 (hset1 st.heap st.fresh ⟨x, none⟩) t ⟨(st.heap t).content, some st.fresh⟩,
        fresh := st.fresh + 1,
        tail := some st.fresh,
        size := i64wrap (st.size + 1) } := by
  simp [LinkedList.add, ht, hset1_ne _ _ _ htf]

theorem sll_add_eq_of_no_tail {st : LinkedList} (ht : st.tail = none) (x : Nat) :
    st.add x =
      { st with
        heap := hset1 st.heap st.fresh ⟨x, none⟩,
        fresh := st.fresh + 1,
        head := some st.fresh,
        tail := some st.fresh,
        size := i64wrap (st.size + 1) } := by
  simp [LinkedList.add, ht]

theorem sll_add_spec {st : LinkedList} {l : List Nat} (hwf : WF1 st l) (x : Nat)
    (hlen : (l.length : Int) + 1 < I63) :
    WF1 (st.add x) (l ++ [st.fresh]) ∧
    contentsOf1 (st.add x).heap (l ++ [st.fresh]) = contentsOf1 st.heap l ++ [x] := by
  obtain ⟨hseg, htail, hsize, hnd, hfr, hbound⟩ := hwf
  rcases List.eq_nil_or_concat l with rfl | ⟨D, t, hl⟩
  · rw [sll_add_eq_of_no_tail (by simpa using htail) x]
    refine ⟨⟨?_, ?_, ?_, ?_, ?_, ?_⟩, ?_⟩
    · simp [sllSeg, hset1]
    · simp
    · simp only [List.length_nil, Nat.cast_zero] at hsize
      simp only [hsize, List.nil_append, List.length_cons, List.length_nil, Nat.cast_one,
        Nat.cast_zero]
      decide
    · simp
    · simp
    · simpa using hlen
    · simp [contentsOf1, hset1]
  · rw [List.concat_eq_append] at hl
    subst hl
    have htmem : t ∈ D ++ [t] := by simp
    have htf : t ≠ st.fresh := Nat.ne_of_lt (hfr t htmem)
    have htail' : st.tail = some t := by simpa using htail
    rw [sll_add_eq_of_tail htail' htf x]
    obtain ⟨m, hm1, hm2⟩ := sllSeg_split hseg
    simp only [sllSeg_cons, sllSeg_nil, Bool.and_eq_true, beq_iff_eq] at hm2
    obtain ⟨rfl, htnone⟩ := hm2
    have htD : t ∉ D := by
      have hdisj := List.disjoint_of_nodup_append hnd
      intro hc
      exact List.disjoint_left.mp hdisj hc (by simp)
    have hfD : st.fresh ∉ D := by
      intro hc
      have hlt := hfr st.fresh (by simp [hc])
      omega
    have hagree :
        ∀ a ∈ D,
          (hset1 (hset1 st.heap st.fresh ⟨x, none⟩) t
              ⟨(st.heap t).content, some st.fresh⟩ a) = st.heap a := by
      intro a ha
      have h1 : a ≠ t := by rintro rfl; exact htD ha
      have h2 : a ≠ st.fresh := by rintro rfl; exact hfD ha
      rw [hset1_ne _ _ _ h1, hset1_ne _ _ _ h2]
    have et :
        (hset1 (hset1 st.heap st.fresh ⟨x, none⟩) t
            ⟨(st.heap t).content, some st.fresh⟩) t =
          ⟨(st.heap t).content, some st.fresh⟩ := hset1_same _ _ _
    have ef :
        (hset1 (hset1 st.heap st.fresh ⟨x, none⟩) t
            ⟨(st.heap t).content, some st.fresh⟩) st.fresh = ⟨x, none⟩ := by
      rw [hset1_ne _ _ _ (Ne.symm htf), hset1_same]
    refine ⟨⟨?_, ?_, ?_, ?_, ?_, ?_⟩, ?_⟩
    · have hDseg :
          sllSeg (hset1 (hset1 st.heap st.fresh ⟨x, none⟩) t
            ⟨(st.heap t).content, some st.fresh⟩) st.head D (some t) = true := by
        rw [sllSeg_congr fun a ha => by rw [hagree a ha]]
        exact hm1
      have htseg :
          sllSeg (hset1 (hset1 st.heap st.fresh ⟨x, none⟩) t
            ⟨(st.heap t).content, some st.fresh⟩) (some t) [t, st.fresh] none = true := by
        simp [sllSeg, et, ef]
      have hfull := sllSeg_append hDseg htseg
      simpa [List.append_assoc] using hfull
    · simp
    · dsimp only
      rw [hsize, i64wrap_eq_self (by unfold I63; omega) hlen]
      simp only [List.length_append, List.length_cons, List.length_nil]
      push_cast
      ring
    · simp only [List.append_assoc, List.singleton_append]
      rw [List.nodup_append] at hnd ⊢
      refine ⟨hnd.1, ?_, ?_⟩
      · simp [htf]
      · intro a haD hb
        simp only [List.mem_cons, List.not_mem_nil, or_false] at hb
        rcases hb with rfl | rfl
        · exact htD haD
        · exact hfD haD
    · intro a ha
      rcases List.mem_append.mp ha with h1 | h1
      · exact Nat.lt_succ_of_lt (hfr a h1)
      · have ha2 : a = st.fresh := by simpa using h1
        subst ha2
        exact Nat.lt_succ_self _
    · simp only [List.length_append, List.length_cons, List.length_nil] at hlen ⊢
      push_cast at hlen ⊢
      omega
    · dsimp only
      unfold contentsOf1
      rw [List.map_append]
      congr 1
      · rw [List.map_append, List.map_append]
        congr 1
        · exact List.map_congr_left fun a ha => by rw [hagree a ha]
        · simp only [List.map_cons, List.map_nil, et]
      · simp only [List.map_cons, List.map_nil, ef]

theorem WF1_new : WF1 LinkedList.new [] := by
  refine ⟨rfl, rfl, rfl, List.nodup_nil, ?_, ?_⟩
  · intro a ha
    simp at ha
  · unfold I63
    norm_num

theorem sll_elems_of_seg (st : LinkedList) {l : List Nat}
    (hseg : sllSeg st.heap st.head l none = true) (fuel : Nat) (hf : l.length ≤ fuel) :
    st.elems fuel = contentsOf1 st.heap l := by
  unfold LinkedList.elems contentsOf1
  rw [sllChain_of_seg hseg fuel hf]

theorem sllCloneLoop_spec {h : Nat → ListNode} :
    ∀ (rest : List Nat) (cur : Option Nat) (acc : LinkedList) (lacc : List Nat) (fuel : Nat),
      sllSeg h cur rest none = true → WF1 acc lacc →
      ((lacc.length : Int) + (rest.length : Int)) < I63 → rest.length ≤ fuel →
      ∃ lr, WF1 (sllCloneLoop h acc cur fuel) lr ∧
        contentsOf1 (sllCloneLoop h acc cur fuel).heap lr =
          contentsOf1 acc.heap lacc ++ contentsOf1 h rest := by
  intro rest
  induction rest with
  | nil =>
    intro cur acc lacc fuel hseg hwf _ _
    simp only [sllSeg_nil, beq_iff_eq] at hseg
    subst hseg
    have hloop : sllCloneLoop h acc none fuel = acc := by cases fuel <;> rfl
    rw [hloop]
    exact ⟨lacc, hwf, by simp [contentsOf1]⟩
  | cons a rest ih =>
    intro cur acc lacc fuel hseg hwf hlen hf
    simp only [sllSeg_cons, Bool.and_eq_true, beq_iff_eq] at hseg
    obtain ⟨rfl, hseg2⟩ := hseg
    cases fuel with
    | zero => simp at hf
    | succ n =>
      have hstep :
          sllCloneLoop h acc (some a) (n + 1) =
            sllCloneLoop h (acc.add (h a).content) ((h a).linked_node) n := rfl
      rw [hstep]
      have hlacc : ((lacc.length : Int)) + 1 < I63 := by
        simp only [List.length_cons] at hlen
        push_cast at hlen ⊢
        omega
      obtain ⟨hwf', hcont⟩ := sll_add_spec hwf ((h a).content) hlacc
      have hlen' :
          (((lacc ++ [acc.fresh]).length : Int)) + (rest.length : Int) < I63 := by
        simp only [List.length_append, List.length_cons, List.length_nil] at hlen ⊢
        push_cast at hlen ⊢
        omega
      obtain ⟨lr, hlr, hlrc⟩ :=
        ih ((h a).linked_node) (acc.add (h a).content) (lacc ++ [acc.fresh]) n hseg2 hwf'
          hlen' (by simpa using Nat.le_of_succ_le_succ hf)
      refine ⟨lr, hlr, ?_⟩
      rw [hlrc, hcont]
      simp [contentsOf1]

theorem sll_clone_spec {st : LinkedList} {l : List Nat}
    (hseg : sllSeg st.heap st.head l none = true) (hlen : (l.length : Int) < I63)
    {fuel : Nat} (hf : l.length ≤ fuel) :
    ∃ lr, WF1 (st.clone fuel) lr ∧
      contentsOf1 (st.clone fuel).heap lr = contentsOf1 st.heap l := by
  obtain ⟨lr, h1, h2⟩ :=
    sllCloneLoop_spec l st.head LinkedList.new [] fuel hseg WF1_new (by simpa) hf
  exact ⟨lr, h1, by simpa [contentsOf1] using h2⟩

theorem sllContainsLoop_spec {h : Nat → ListNode} {item : Nat} :
    ∀ (r : List Nat) (cur : Option Nat) (fuel : Nat) (acc : Bool),
      sllSeg h cur r none = true → r.length ≤ fuel →
      sllContainsLoop h item cur fuel acc = (acc || (contentsOf1 h r).contains item) := by
  intro r
  induction r with
  | nil =>
    intro cur fuel acc hseg _
    simp only [sllSeg_nil, beq_iff_eq] at hseg
    subst hseg
    cases fuel <;> simp [sllContainsLoop, contentsOf1]
  | cons a r ih =>
    intro cur fuel acc hseg hf
    simp only [sllSeg_cons, Bool.and_eq_true, beq_iff_eq] at hseg
    obtain ⟨rfl, hseg2⟩ := hseg
    cases fuel with
    | zero => simp at hf
    | succ n =>
      have hstep :
          sllContainsLoop h item (some a) (n + 1) acc =
            sllContainsLoop h item ((h a).linked_node) n (acc || ((h a).content == item)) :=
        rfl
      rw [hstep, ih ((h a).linked_node) n _ hseg2 (by simpa using Nat.le_of_succ_le_succ hf)]
      by_cases hx : item = (h a).content
      · simp [contentsOf1, Bool.or_assoc, BEq.comm, hx]
      · simp [contentsOf1, Bool.or_assoc, BEq.comm, hx, beq_eq_false_iff_ne.mpr hx]

theorem sll_skip_to {h : Nat → ListNode} {hd m : Option Nat} {A B : List Nat} {b : Nat}
    (hseg : sllSeg h hd (A ++ b :: B) m = true) :
    sllIterSkip h hd A.length = some b := by
  obtain ⟨m', h1, h2⟩ := sllSeg_split hseg
  simp only [sllSeg_cons, Bool.and_eq_true, beq_iff_eq] at h2
  rw [sllIterSkip_seg h1, h2.1]

theorem sll_advance_to {h : Nat → ListNode} {hd m : Option Nat} {A B : List Nat} {b : Nat}
    (hseg : sllSeg h hd (A ++ b :: B) m = true) :
    sllAdvance h hd A.length = .ok (some b) := by
  obtain ⟨m', h1, h2⟩ := sllSeg_split hseg
  simp only [sllSeg_cons, Bool.and_eq_true, beq_iff_eq] at h2
  rw [h2.1] at h1
  exact sllAdvance_seg h1

theorem sll_get_spec (st : LinkedList) {L A B : List Nat} {b : Nat}
    (hseg : sllSeg st.heap st.head L none = true) (hL : L = A ++ b :: B)
    (hidx : (A.length : Int) < st.size) (hlen : (L.length : Int) < I63)
    (fuel : Nat) (hf : L.length ≤ fuel) :
    st.get (A.length : Int) fuel = .ok ((st.heap b).content) := by
  subst hL
  have hchk : st.index_check (A.length : Int) = .ok () := by
    unfold LinkedList.index_check
    rw [if_neg]
    push_neg
    exact ⟨Int.natCast_nonneg _, hidx⟩
  obtain ⟨lr, hwf, hcont⟩ := sll_clone_spec hseg hlen hf
  have hlrlen : lr.length = (A ++ b :: B).length := by
    have := congrArg List.length hcont
    simpa [contentsOf1] using this
  have hilt : A.length < lr.length := by
    rw [hlrlen]
    simp
  obtain ⟨c, lrB, hdrop⟩ :=
    List.exists_cons_of_ne_nil (l := lr.drop A.length)
      (by
        intro hc
        have := List.length_drop A.length lr
        rw [hc] at this
        simp at this
        omega)
  have hlrsplit : lr = lr.take A.length ++ c :: lrB := by
    rw [← hdrop, List.take_append_drop]
  have htklen : (lr.take A.length).length = A.length := by
    rw [List.length_take]
    exact Nat.min_eq_left (Nat.le_of_lt hilt)
  have hskip :
      sllIterSkip (st.clone fuel).heap (st.clone fuel).head A.length = some c := by
    have hseg' := hwf.1
    rw [hlrsplit] at hseg'
    have := sll_skip_to hseg'
    rwa [htklen] at this
  have hcontent : ((st.clone fuel).heap c).content = (st.heap b).content := by
    rw [hlrsplit] at hcont
    unfold contentsOf1 at hcont
    rw [List.map_append, List.map_append] at hcont
    have hlencast :
        ((lr.take A.length).map fun a => ((st.clone fuel).heap a).content).length =
          (A.map fun a => (st.heap a).content).length := by
      simp only [List.length_map]
      exact htklen
    obtain ⟨h1, h2⟩ := List.append_inj hcont hlencast
    simpa using congrArg List.head? h2
  unfold LinkedList.get
  rw [hchk]
  simp only [Int.toNat_natCast]
  rw [hskip]
  show Except.ok ((st.clone fuel).heap c).content = Except.ok ((st.heap b).content)
  rw [hcontent]

theorem list_split_at {α : Type} :
    ∀ (l : List α) (n : Nat), n < l.length → ∃ A b B, l = A ++ b :: B ∧ A.length = n := by
  intro l
  induction l with
  | nil =>
    intro n hn
    simp at hn
  | cons a l ih =>
    intro n hn
    cases n with
    | zero => exact ⟨[], a, l, rfl, rfl⟩
    | succ m =>
      obtain ⟨A, b, B, h1, h2⟩ := ih m (by simpa using Nat.lt_of_succ_lt_succ hn)
      exact ⟨a :: A, b, B, by simp [h1], by simp [h2]⟩

theorem sll_index_check_ok {st : LinkedList} {i : Nat} (hlt : (i : Int) < st.size) :
    st.index_check (i : Int) = .ok () := by
  unfold LinkedList.index_check
  rw [if_neg]
  push_neg
  exact ⟨Int.natCast_nonneg _, hlt⟩

/-- Head insertion (`index == 0`) for the singly-linked list: the new node is
prepended to the chain, contents shift by one position, and `size` is left
unchanged. -/
theorem sll_insert_at_head {st : LinkedList} {l : List Nat} (hwf : WF1 st l) (item : Nat)
    (hne : l ≠ []) :
    (st.insert_at item 0).1 = .ok () ∧
    (st.insert_at item 0).2 =
      { st with
        heap := hset1 st.heap st.fresh ⟨item, st.head⟩,
        fresh := st.fresh + 1,
        head := some st.fresh } ∧
    sllSeg (hset1 st.heap st.fresh ⟨item, st.head⟩) (some st.fresh) (st.fresh :: l) none =
      true ∧
    contentsOf1 (hset1 st.heap st.fresh ⟨item, st.head⟩) (st.fresh :: l) =
      item :: contentsOf1 st.heap l := by
  obtain ⟨hseg, htail, hsize, hnd, hfr, hbound⟩ := hwf
  have hpos : (0 : Int) < st.size := by
    rw [hsize]
    cases l with
    | nil => exact absurd rfl hne
    | cons a l => exact_mod_cast Nat.succ_pos l.length
  have hchk : st.index_check 0 = .ok () := by
    have := @sll_index_check_ok st 0 (by simpa using hpos)
    simpa using this
  have hfnotl : ∀ a ∈ l, a ≠ st.fresh := fun a ha => Nat.ne_of_lt (hfr a ha)
  refine ⟨?_, ?_, ?_, ?_⟩
  · unfold LinkedList.insert_at
    rw [hchk]
    simp
  · unfold LinkedList.insert_at
    rw [hchk]
    simp
  · simp only [sllSeg_cons, Bool.and_eq_true, beq_iff_eq, hset1_same]
    refine ⟨by simp, ?_⟩
    rw [sllSeg_congr fun a ha => by rw [hset1_ne _ _ _ (hfnotl a ha)]]
    exact hseg
  · unfold contentsOf1
    simp only [List.map_cons, hset1_same]
    congr 1
    exact List.map_congr_left fun a ha => by rw [hset1_ne _ _ _ (hfnotl a ha)]

/-- Tail-index insertion (`index == size - 1` with `index ≥ 1`) for the
singly-linked list is an append: the item lands after the old tail. -/
theorem sll_insert_at_last {st : LinkedList} {l : List Nat} (hwf : WF1 st l) (item : Nat)
    {i : Nat} (hi1 : 1 ≤ i) (hilast : i = l.length - 1)
    (hlen : (l.length : Int) + 1 < I63) {fuel : Nat} (hf : l.length + 1 ≤ fuel) :
    (st.insert_at item (i : Int)).1 = .ok () ∧
    (st.insert_at item (i : Int)).2.elems fuel = contentsOf1 st.heap l ++ [item] := by
  have hseg := hwf.1
  have hsize := hwf.2.2.1
  have hllen : 2 ≤ l.length := by omega
  have hlt : (i : Int) < st.size := by
    rw [hsize]
    omega
  have hchk := sll_index_check_ok hlt
  have hne0 : ((i : Nat) : Int) ≠ 0 := by
    simp only [ne_eq, Nat.cast_eq_zero]
    omega
  have heq : ((i : Nat) : Int) = st.size - 1 := by
    rw [hsize]
    omega
  have hred : st.insert_at item (i : Int) = (.ok (), st.add item) := by
    unfold LinkedList.insert_at
    rw [hchk, if_neg hne0, if_pos heq]
  obtain ⟨hwf', hcont'⟩ := sll_add_spec hwf item hlen
  refine ⟨by rw [hred], ?_⟩
  rw [hred]
  have := sll_elems_of_seg _ hwf'.1 fuel (by simpa using hf)
  rw [this, hcont']

/-- Interior insertion (`1 ≤ index < size - 1`) for the singly-linked list:
the reduced result state, the new chain, and its contents. -/
theorem sll_insert_at_mid {st : LinkedList} {l : List Nat} (hwf : WF1 st l) (item : Nat)
    {i : Nat} (hi1 : 1 ≤ i) (hi2 : i + 1 < l.length) :
    ∃ A p n0 C2,
      l = A ++ p :: n0 :: C2 ∧ A.length = i - 1 ∧
      (st.insert_at item (i : Int)).1 = .ok () ∧
      (st.insert_at item (i : Int)).2 =
        { st with
          heap := hset1 (hset1 st.heap st.fresh ⟨item, some n0⟩) p
            ⟨(st.heap p).content, some st.fresh⟩,
          fresh := st.fresh + 1 } ∧
      sllSeg (hset1 (hset1 st.heap st.fresh ⟨item, some n0⟩) p
          ⟨(st.heap p).content, some st.fresh⟩) st.head
        (A ++ p :: st.fresh :: n0 :: C2) none = true ∧
      contentsOf1 (hset1 (hset1 st.heap st.fresh ⟨item, some n0⟩) p
          ⟨(st.heap p).content, some st.fresh⟩) (A ++ p :: st.fresh :: n0 :: C2) =
        (contentsOf1 st.heap l).take i ++ item :: (contentsOf1 st.heap l).drop i := by
  obtain ⟨hseg, htail, hsize, hnd, hfr, hbound⟩ := hwf
  obtain ⟨A, p, C, hsplit, hAlen⟩ := list_split_at l (i - 1) (by omega)
  have hClen : 2 ≤ C.length := by
    have := congrArg List.length hsplit
    simp only [List.length_append, List.length_cons] at this
    omega
  obtain ⟨n0, C2, rfl⟩ : ∃ n0 C2, C = n0 :: C2 := by
    cases C with
    | nil => simp at hClen
    | cons x xs => exact ⟨x, xs, rfl⟩
  subst hsplit
  have hlen4 : (A ++ p :: n0 :: C2).length = A.length + C2.length + 2 := by
    simp only [List.length_append, List.length_cons]
    omega
  have hpA : p ∉ A := by
    have hdisj := List.disjoint_of_nodup_append hnd
    intro hc
    exact List.disjoint_left.mp hdisj hc (by simp)
  have hpC : p ∉ n0 :: C2 := by
    have hnd2 := List.Nodup.of_append_right hnd
    exact (List.nodup_cons.mp hnd2).1
  have hfrP : p < st.fresh := hfr p (by simp)
  have hfrA : ∀ a ∈ A, a < st.fresh := fun a ha => hfr a (by simp [ha])
  have hfrC : ∀ a ∈ n0 :: C2, a < st.fresh := fun a ha => by
    rcases List.mem_cons.mp ha with rfl | ha2
    · exact hfr a (by simp)
    · exact hfr a (by simp [ha2])
  obtain ⟨m, hA, hC⟩ := sllSeg_split hseg
  have hmp : m = some p := by
    simp only [sllSeg_cons, Bool.and_eq_true, beq_iff_eq] at hC
    exact hC.1
  subst hmp
  simp only [sllSeg_cons, Bool.and_eq_true, beq_iff_eq, true_and] at hC
  have hplink : (st.heap p).linked_node = some n0 := hC.1
  have hn0seg : sllSeg st.heap (some n0) (n0 :: C2) none = true := by
    simp only [sllSeg_cons, Bool.and_eq_true, beq_iff_eq, true_and]
    exact hC.2
  have hchk := @sll_index_check_ok st i
    (by rw [hsize, hlen4]; push_cast; omega)
  have hne0 : ((i : Nat) : Int) ≠ 0 := by
    simp only [ne_eq, Nat.cast_eq_zero]
    omega
  have hneLast : ((i : Nat) : Int) ≠ st.size - 1 := by
    rw [hsize, hlen4]
    push_cast
    omega
  have hgn : st.get_node_at ((i : Int) - 1) = .ok p := by
    unfold LinkedList.get_node_at
    have hchk' : st.index_check ((i : Int) - 1) = .ok () := by
      have hcast : ((i : Int) - 1) = ((i - 1 : Nat) : Int) := by omega
      rw [hcast]
      exact sll_index_check_ok (by rw [hsize, hlen4]; push_cast; omega)
    rw [hchk']
    have htn : ((i : Int) - 1).toNat = A.length := by
      rw [hAlen]
      omega
    rw [htn, sll_advance_to (B := n0 :: C2) hseg]
  have hpf : p ≠ st.fresh := Nat.ne_of_lt hfrP
  have hred :
      st.insert_at item (i : Int) =
        (.ok (),
          { st with
            heap := hset1 (hset1 st.heap st.fresh ⟨item, some n0⟩) p
              ⟨(st.heap p).content, some st.fresh⟩,
            fresh := st.fresh + 1 }) := by
    unfold LinkedList.insert_at
    rw [hchk]
    simp [hne0, hneLast, hgn, hplink, hset1_ne _ _ _ hpf]
  have hagreeA :
      ∀ a ∈ A,
        (hset1 (hset1 st.heap st.fresh ⟨item, some n0⟩) p
            ⟨(st.heap p).content, some st.fresh⟩) a = st.heap a := by
    intro a ha
    have h1 : a ≠ p := by rintro rfl; exact hpA ha
    have h2 : a ≠ st.fresh := Nat.ne_of_lt (hfrA a ha)
    rw [hset1_ne _ _ _ h1, hset1_ne _ _ _ h2]
  have hagreeC :
      ∀ a ∈ n0 :: C2,
        (hset1 (hset1 st.heap st.fresh ⟨item, some n0⟩) p
            ⟨(st.heap p).content, some st.fresh⟩) a = st.heap a := by
    intro a ha
    have h1 : a ≠ p := by rintro rfl; exact hpC ha
    have h2 : a ≠ st.fresh := Nat.ne_of_lt (hfrC a ha)
    rw [hset1_ne _ _ _ h1, hset1_ne _ _ _ h2]
  have hep :
      (hset1 (hset1 st.heap st.fresh ⟨item, some n0⟩) p
          ⟨(st.heap p).content, some st.fresh⟩) p =
        ⟨(st.heap p).content, some st.fresh⟩ := hset1_same _ _ _
  have hef :
      (hset1 (hset1 st.heap st.fresh ⟨item, some n0⟩) p
          ⟨(st.heap p).content, some st.fresh⟩) st.fresh = ⟨item, some n0⟩ := by
    rw [hset1_ne _ _ _ (Ne.symm hpf), hset1_same]
  refine ⟨A, p, n0, C2, rfl, hAlen, by rw [hred], by rw [hred], ?_, ?_⟩
  · have hAseg :
        sllSeg (hset1 (hset1 st.heap st.fresh ⟨item, some n0⟩) p
          ⟨(st.heap p).content, some st.fresh⟩) st.head A (some p) = true := by
      rw [sllSeg_congr fun a ha => by rw [hagreeA a ha]]
      exact hA
    have hmidseg :
        sllSeg (hset1 (hset1 st.heap st.fresh ⟨item, some n0⟩) p
          ⟨(st.heap p).content, some st.fresh⟩) (some p) [p, st.fresh] (some n0) = true := by
      simp [sllSeg, hep, hef]
    have hCseg :
        sllSeg (hset1 (hset1 st.heap st.fresh ⟨item, some n0⟩) p
          ⟨(st.heap p).content, some st.fresh⟩) (some n0) (n0 :: C2) none = true := by
      rw [sllSeg_congr fun a ha => by rw [hagreeC a ha]]
      exact hn0seg
    have hfull := sllSeg_append hAseg (sllSeg_append hmidseg hCseg)
    simpa using hfull
  · have hcA :
        List.map (fun a =>
            ((hset1 (hset1 st.heap st.fresh ⟨item, some n0⟩) p
              ⟨(st.heap p).content, some st.fresh⟩) a).content) A =
          List.map (fun a => (st.heap a).content) A :=
      List.map_congr_left fun a ha => by rw [hagreeA a ha]
    have hcn0 :
        ((hset1 (hset1 st.heap st.fresh ⟨item, some n0⟩) p
            ⟨(st.heap p).content, some st.fresh⟩) n0).content = (st.heap n0).content := by
      rw [hagreeC n0 (by simp)]
    have hcC2 :
        List.map (fun a =>
            ((hset1 (hset1 st.heap st.fresh ⟨item, some n0⟩) p
              ⟨(st.heap p).content, some st.fresh⟩) a).content) C2 =
          List.map (fun a => (st.heap a).content) C2 :=
      List.map_congr_left fun a ha => by rw [hagreeC a (by simp [ha])]
    have htake :
        (contentsOf1 st.heap (A ++ p :: n0 :: C2)).take i =
          List.map (fun a => (st.heap a).content) A ++ [(st.heap p).content] := by
      unfold contentsOf1
      have h1 : List.map (fun a => (st.heap a).content) (A ++ p :: n0 :: C2) =
          (List.map (fun a => (st.heap a).content) A ++ [(st.heap p).content]) ++
            List.map (fun a => (st.heap a).content) (n0 :: C2) := by
        simp
      rw [h1, List.take_left']
      simp only [List.length_append, List.length_map, List.length_cons, List.length_nil]
      omega
    have hdrop :
        (contentsOf1 st.heap (A ++ p :: n0 :: C2)).drop i =
          List.map (fun a => (st.heap a).content) (n0 :: C2) := by
      unfold contentsOf1
      have h1 : List.map (fun a => (st.heap a).content) (A ++ p :: n0 :: C2) =
          (List.map (fun a => (st.heap a).content) A ++ [(st.heap p).content]) ++
            List.map (fun a => (st.heap a).content) (n0 :: C2) := by
        simp
      rw [h1, List.drop_left']
      simp only [List.length_append, List.length_map, List.length_cons, List.length_nil]
      omega
    rw [htake, hdrop]
    unfold contentsOf1
    simp only [List.map_append, List.map_cons, hcA, hep, hef, hcn0, hcC2]
    simp

/-- Combined insert-position semantics for the singly-linked list: for
`index = 0` or `1 ≤ index < size - 1`, `insert_at` succeeds, the forward
iteration sequence acquires `item` at position `index` with the old elements
from position `index` shifted one to the right, and `get(index)` returns the
inserted handle. -/
theorem sll_insert_at_ins {st : LinkedList} {l : List Nat} (hwf : WF1 st l) (item : Nat)
    {i : Nat} (hcase : i = 0 ∧ l ≠ [] ∨ 1 ≤ i ∧ i + 1 < l.length)
    (hlen : (l.length : Int) + 1 < I63) {fuel : Nat} (hf : l.length + 1 ≤ fuel) :
    (st.insert_at item (i : Int)).1 = .ok () ∧
    (st.insert_at item (i : Int)).2.elems fuel =
      (contentsOf1 st.heap l).take i ++ item :: (contentsOf1 st.heap l).drop i ∧
    (st.insert_at item (i : Int)).2.get (i : Int) fuel = .ok item := by
  have hsize := hwf.2.2.1
  rcases hcase with ⟨rfl, hne⟩ | ⟨hi1, hi2⟩
  · obtain ⟨hok, hstate, hseg', hcont'⟩ := sll_insert_at_head hwf item hne
    have hcast0 : ((0 : Nat) : Int) = (0 : Int) := by norm_num
    rw [hcast0] at *
    have hpos : (0 : Int) < st.size := by
      rw [hsize]
      cases l with
      | nil => exact absurd rfl hne
      | cons a l => exact_mod_cast Nat.succ_pos l.length
    refine ⟨hok, ?_, ?_⟩
    · rw [hstate]
      have helems := sll_elems_of_seg
        { st with
          heap := hset1 st.heap st.fresh ⟨item, st.head⟩,
          fresh := st.fresh + 1,
          head := some st.fresh } hseg' fuel (by simp; omega)
      rw [helems, hcont']
      simp
    · rw [hstate]
      have hget := sll_get_spec
          { st with
            heap := hset1 st.heap st.fresh ⟨item, st.head⟩,
            fresh := st.fresh + 1,
            head := some st.fresh }
        (L := st.fresh :: l) (A := []) (B := l) (b := st.fresh) hseg' rfl
        (by simpa using hpos) (by simp only [List.length_cons]; push_cast at hlen ⊢; omega)
        fuel (by simp; omega)
      simpa [hset1_same] using hget
  · obtain ⟨A, p, n0, C2, hl, hAlen, hok, hstate, hseg', hcont'⟩ :=
      sll_insert_at_mid hwf item hi1 hi2
    have hfrP : p < st.fresh := hwf.2.2.2.2.1 p (by rw [hl]; simp)
    have hpf : p ≠ st.fresh := Nat.ne_of_lt hfrP
    have hlAlen : l.length = A.length + C2.length + 2 := by
      rw [hl]
      simp only [List.length_append, List.length_cons]
      omega
    refine ⟨hok, ?_, ?_⟩
    · rw [hstate]
      have helems := sll_elems_of_seg
        { st with
          heap := hset1 (hset1 st.heap st.fresh ⟨item, some n0⟩) p
            ⟨(st.heap p).content, some st.fresh⟩,
          fresh := st.fresh + 1 } hseg' fuel
        (by
          simp only [List.length_append, List.length_cons]
          omega)
      rw [helems, hcont']
    · rw [hstate]
      have hsegassoc :
          sllSeg (hset1 (hset1 st.heap st.fresh ⟨item, some n0⟩) p
              ⟨(st.heap p).content, some st.fresh⟩) st.head
            ((A ++ [p]) ++ st.fresh :: n0 :: C2) none = true := by
        simpa [List.append_assoc] using hseg'
      have hget := sll_get_spec
          { st with
            heap := hset1 (hset1 st.heap st.fresh ⟨item, some n0⟩) p
              ⟨(st.heap p).content, some st.fresh⟩,
            fresh := st.fresh + 1 }
        (L := (A ++ [p]) ++ st.fresh :: n0 :: C2) (A := A ++ [p]) (B := n0 :: C2)
        (b := st.fresh) hsegassoc rfl
        (by
          simp only [List.length_append, List.length_cons, List.length_nil]
          rw [hsize, hlAlen]
          push_cast
          omega)
        (by
          simp only [List.length_append, List.length_cons, List.length_nil]
          rw [hlAlen] at hlen
          push_cast at hlen ⊢
          omega)
        fuel
        (by
          simp only [List.length_append, List.length_cons, List.length_nil]
          rw [hlAlen] at hf
          omega)
      have hAplen : ((A ++ [p]).length : Int) = (i : Int) := by
        simp only [List.length_append, List.length_cons, List.length_nil]
        rw [hAlen]
        push_cast
        omega
      rw [hAplen] at hget
      have hfc :
          ((hset1 (hset1 st.heap st.fresh ⟨item, some n0⟩) p
              ⟨(st.heap p).content, some st.fresh⟩) st.fresh).content = item := by
        rw [hset1_ne _ _ _ (Ne.symm hpf), hset1_same]
      rw [hget, hfc]

/-- `contains` for the singly-linked list is identity membership among the
stored content handles. -/
theorem sll_contains_spec {st : LinkedList} {l : List Nat} (hwf : WF1 st l) (item : Nat)
    {fuel : Nat} (hf : l.length ≤ fuel) :
    (st.contains item fuel = true ↔ item ∈ contentsOf1 st.heap l) := by
  unfold LinkedList.contains
  obtain ⟨lr, hwfc, hcont⟩ := sll_clone_spec hwf.1 hwf.2.2.2.2.2 hf
  have hlrlen : lr.length = l.length := by
    have := congrArg List.length hcont
    simpa [contentsOf1] using this
  rw [sllContainsLoop_spec lr _ fuel false hwfc.1 (by omega)]
  rw [hcont]
  simp [List.contains_iff_exists_mem_beq, contentsOf1]

theorem sllFindPrevLoop_step (h : Nat → ListNode) (item c n : Nat) :
    sllFindPrevLoop h item (some c) (n + 1) =
      match (h c).linked_node with
      | none => .error .UnexpectedError
      | some nxt =>
        if (h nxt).content = item then .ok (some c)
        else sllFindPrevLoop h item (some nxt) n := rfl

theorem sllFindPrevLoop_absent {h : Nat → ListNode} {item : Nat} :
    ∀ (rest : List Nat) (c : Nat) (fuel : Nat),
      sllSeg h (some c) (c :: rest) none = true →
      (∀ a ∈ rest, (h a).content ≠ item) →
      rest.length + 1 ≤ fuel →
      sllFindPrevLoop h item (some c) fuel = .error .UnexpectedError := by
  intro rest
  induction rest with
  | nil =>
    intro c fuel hseg habs hf
    simp only [sllSeg_cons, sllSeg_nil, Bool.and_eq_true, beq_iff_eq, true_and] at hseg
    obtain ⟨n, rfl⟩ : ∃ n, fuel = n + 1 := ⟨fuel - 1, by omega⟩
    simp only [sllFindPrevLoop_step, hseg]
  | cons b rest ih =>
    intro c fuel hseg habs hf
    simp only [sllSeg_cons, Bool.and_eq_true, beq_iff_eq, true_and] at hseg
    obtain ⟨hlink, hseg2⟩ := hseg
    obtain ⟨n, rfl⟩ : ∃ n, fuel = n + 1 := ⟨fuel - 1, by omega⟩
    simp only [sllFindPrevLoop_step, hlink]
    simp only [if_neg (habs b (by simp))]
    exact ih b n (by simp [sllSeg, hseg2]) (fun a ha => habs a (by simp [ha]))
      (by simpa using Nat.le_of_succ_le_succ hf)

theorem sllFindPrevLoop_found {h : Nat → ListNode} {item : Nat} :
    ∀ (rest : List Nat) (c : Nat) (fuel : Nat),
      sllSeg h (some c) (c :: rest) none = true →
      item ∈ contentsOf1 h rest →
      rest.length ≤ fuel →
      ∃ prev target, sllFindPrevLoop h item (some c) fuel = .ok (some prev) ∧
        (h prev).linked_node = some target ∧ (h target).content = item ∧
        target ∈ rest := by
  intro rest
  induction rest with
  | nil =>
    intro c fuel hseg hmem _
    simp [contentsOf1] at hmem
  | cons b rest ih =>
    intro c fuel hseg hmem hf
    simp only [sllSeg_cons, Bool.and_eq_true, beq_iff_eq, true_and] at hseg
    obtain ⟨hlink, hseg2⟩ := hseg
    obtain ⟨n, rfl⟩ : ∃ n, fuel = n + 1 :=
      ⟨fuel - 1, by simp only [List.length_cons] at hf; omega⟩
    simp only [sllFindPrevLoop_step, hlink]
    by_cases hb : (h b).content = item
    · rw [if_pos hb]
      exact ⟨c, b, rfl, hlink, hb, by simp⟩
    · rw [if_neg hb]
      have hmem2 : item ∈ contentsOf1 h rest := by
        simp only [contentsOf1, List.map_cons, List.mem_cons] at hmem
        rcases hmem with hmem | hmem
        · exact absurd hmem.symm hb
        · exact hmem
      obtain ⟨prev, target, h1, h2, h3, h4⟩ :=
        ih b n (by simp [sllSeg, hseg2]) hmem2
          (by simp only [List.length_cons] at hf; omega)
      exact ⟨prev, target, h1, h2, h3, by simp [h4]⟩

theorem sllSeg_next_of_mem_ne_last {h : Nat → ListNode} :
    ∀ (l : List Nat) (cur : Option Nat), sllSeg h cur l none = true →
      ∀ a ∈ l, some a ≠ l.getLast? → ∃ b, (h a).linked_node = some b := by
  intro l
  induction l with
  | nil =>
    intro cur _ a ha
    simp at ha
  | cons c l ih =>
    intro cur hseg a ha hne
    simp only [sllSeg_cons, Bool.and_eq_true, beq_iff_eq] at hseg
    obtain ⟨rfl, hseg2⟩ := hseg
    rcases List.mem_cons.mp ha with rfl | ha2
    · cases l with
      | nil => exact ((hne (by simp)).elim)
      | cons b l' =>
        simp only [sllSeg_cons, Bool.and_eq_true, beq_iff_eq] at hseg2
        exact ⟨b, hseg2.1⟩
    · have hlne : l ≠ [] := List.ne_nil_of_mem ha2
      have hgl : (c :: l).getLast? = l.getLast? := by
        cases l with
        | nil => exact absurd rfl hlne
        | cons x xs => simp [List.getLast?_cons_cons]
      exact ih ((h c).linked_node) hseg2 a ha2 (by rw [← hgl]; exact hne)

/-- `remove` on an empty singly-linked list fails with `UnexpectedError`. -/
theorem sll_remove_empty {st : LinkedList} (hwf : WF1 st []) (item fuel : Nat) :
    st.remove item fuel = (.error .UnexpectedError, st) := by
  have hsize := hwf.2.2.1
  unfold LinkedList.remove
  rw [if_pos]
  rw [hsize]
  norm_num

/-- `remove` with an absent handle on a non-empty singly-linked list fails with
`UnexpectedError` (the search loop runs off the end of the chain), leaving the
state unchanged; the `ElementNotFound` branch of the source is unreachable. -/
theorem sll_remove_absent {st : LinkedList} {l : List Nat} (hwf : WF1 st l) (hne : l ≠ [])
    {item : Nat} (habs : item ∉ contentsOf1 st.heap l) {fuel : Nat}
    (hf : l.length ≤ fuel) :
    st.remove item fuel = (.error .UnexpectedError, st) := by
  obtain ⟨hseg, htail, hsize, hnd, hfr, hbound⟩ := hwf
  cases l with
  | nil => exact absurd rfl hne
  | cons hd rest =>
    have hhead : st.head = some hd := by
      simp only [sllSeg_cons, Bool.and_eq_true, beq_iff_eq] at hseg
      exact hseg.1
    have hsz1 : ¬st.size < 1 := by
      rw [hsize]
      simp only [List.length_cons]
      push_cast
      omega
    have hhdne : ¬(st.heap hd).content = item := by
      intro hc
      exact habs (by simp [contentsOf1, hc])
    have habs2 : ∀ a ∈ rest, (st.heap a).content ≠ item := by
      intro a ha hc
      refine habs ?_
      simp only [contentsOf1, List.map_cons, List.mem_cons]
      right
      exact List.mem_map.mpr ⟨a, ha, hc⟩
    have hsegc : sllSeg st.heap (some hd) (hd :: rest) none = true := by
      rw [← hhead]
      exact hseg
    have hloop := sllFindPrevLoop_absent rest hd fuel hsegc habs2
      (by simp only [List.length_cons] at hf ⊢; omega)
    unfold LinkedList.remove
    rw [if_neg hsz1, hhead]
    simp only [hhdne, ite_false, hloop]

/-- `remove` with a present handle on a well-formed singly-linked list
returns `Ok`. -/
theorem sll_remove_present {st : LinkedList} {l : List Nat} (hwf : WF1 st l)
    {item : Nat} (hmem : item ∈ contentsOf1 st.heap l) {fuel : Nat}
    (hf : l.length ≤ fuel) :
    (st.remove item fuel).1 = .ok () := by
  obtain ⟨hseg, htail, hsize, hnd, hfr, hbound⟩ := hwf
  cases l with
  | nil => simp [contentsOf1] at hmem
  | cons hd rest =>
    have hhead : st.head = some hd := by
      simp only [sllSeg_cons, Bool.and_eq_true, beq_iff_eq] at hseg
      exact hseg.1
    have hsz1 : ¬st.size < 1 := by
      rw [hsize]
      simp only [List.length_cons]
      push_cast
      omega
    by_cases hhd : (st.heap hd).content = item
    · unfold LinkedList.remove
      rw [if_neg hsz1, hhead]
      simp only [hhd, ite_true, if_pos]
    · have hmem2 : item ∈ contentsOf1 st.heap rest := by
        simp only [contentsOf1, List.map_cons, List.mem_cons] at hmem
        rcases hmem with hmem | hmem
        · exact absurd hmem.symm hhd
        · exact hmem
      have hsegc : sllSeg st.heap (some hd) (hd :: rest) none = true := by
        rw [← hhead]
        exact hseg
      obtain ⟨prev, target, hloop, hplink, htc, htmem⟩ :=
        sllFindPrevLoop_found rest hd fuel hsegc hmem2
          (by simp only [List.length_cons] at hf; omega)
      have htailsome : ∃ t, st.tail = some t := by
        rw [htail]
        cases hgl : (hd :: rest).getLast? with
        | none => simp at hgl
        | some t => exact ⟨t, rfl⟩
      obtain ⟨t, ht⟩ := htailsome
      by_cases htt : target = t
      · unfold LinkedList.remove
        rw [if_neg hsz1, hhead]
        simp only [hhd, ite_false, hloop, hplink, ht, htt, ite_true, if_pos]
      · have hnext : ∃ b, (st.heap target).linked_node = some b := by
          refine sllSeg_next_of_mem_ne_last (hd :: rest) st.head hseg target
            (by simp [htmem]) ?_
          rw [← htail, ht]
          intro hc
          exact htt (by simpa using hc)
        obtain ⟨b, hb⟩ := hnext
        unfold LinkedList.remove
        rw [if_neg hsz1, hhead]
        simp only [hhd, ite_false, hloop, hplink, ht, htt, hb]

/-- Forward chain-segment predicate for the doubly-linked heap. -/
def dllSeg (h : Nat → ListNode2) : Option Nat → List Nat → Option Nat → Bool
  | cur, [], k => cur == k
  | cur, a :: l, k => cur == some a && dllSeg h ((h a).next) l k

@[simp] theorem dllSeg_nil (h : Nat → ListNode2) (cur k : Option Nat) :
    dllSeg h cur [] k = (cur == k) := rfl

@[simp] theorem dllSeg_cons (h : Nat → ListNode2) (cur k : Option Nat) (a : Nat) (l : List Nat) :
    dllSeg h cur (a :: l) k = (cur == some a && dllSeg h ((h a).next) l k) := rfl

theorem dllSeg_append {h : Nat → ListNode2} {cur m k : Option Nat} {l₁ l₂ : List Nat}
    (h1 : dllSeg h cur l₁ m = true) (h2 : dllSeg h m l₂ k = true) :
    dllSeg h cur (l₁ ++ l₂) k = true := by
  induction l₁ generalizing cur with
  | nil => simp_all
  | cons a l ih =>
    simp only [List.cons_append, dllSeg_cons, Bool.and_eq_true, beq_iff_eq] at h1 ⊢
    exact ⟨h1.1, ih h1.2⟩

theorem dllSeg_split {h : Nat → ListNode2} {cur k : Option Nat} {l₁ l₂ : List Nat}
    (hs : dllSeg h cur (l₁ ++ l₂) k = true) :
    ∃ m, dllSeg h cur l₁ m = true ∧ dllSeg h m l₂ k = true := by
  induction l₁ generalizing cur with
  | nil => exact ⟨cur, by simp, by simpa using hs⟩
  | cons a l ih =>
    simp only [List.cons_append, dllSeg_cons, Bool.and_eq_true, beq_iff_eq] at hs
    obtain ⟨m, hm1, hm2⟩ := ih hs.2
    exact ⟨m, by simp [hs.1, hm1], hm2⟩

theorem dllSeg_congr {h h' : Nat → ListNode2} {cur k : Option Nat} {l : List Nat}
    (hagree : ∀ a ∈ l, (h' a).next = (h a).next) :
    dllSeg h' cur l k = dllSeg h cur l k := by
  induction l generalizing cur with
  | nil => rfl
  | cons a l ih =>
    simp only [dllSeg_cons, hagree a (by simp)]
    rw [ih fun b hb => hagree b (by simp [hb])]

theorem dllChain_of_seg {h : Nat → ListNode2} {cur : Option Nat} {l : List Nat}
    (hs : dllSeg h cur l none = true) :
    ∀ fuel, l.length ≤ fuel → dllChain h cur fuel = l := by
  induction l generalizing cur with
  | nil =>
    intro fuel _
    simp only [dllSeg_nil, beq_iff_eq] at hs
    subst hs
    cases fuel <;> rfl
  | cons a l ih =>
    intro fuel hf
    simp only [dllSeg_cons, Bool.and_eq_true, beq_iff_eq] at hs
    obtain ⟨rfl, hs2⟩ := hs
    cases fuel with
    | zero => simp at hf
    | succ n => simpa [dllChain] using ih hs2 n (by simpa using hf)

theorem dllAdvance_seg {h : Nat → ListNode2} {cur : Option Nat} {A : List Nat} {b : Nat}
    (hs : dllSeg h cur A (some b) = true) :
    dllAdvance h cur A.length = .ok (some b) := by
  induction A generalizing cur with
  | nil =>
    simp only [dllSeg_nil, beq_iff_eq] at hs
    subst hs
    rfl
  | cons a A ih =>
    simp only [dllSeg_cons, Bool.and_eq_true, beq_iff_eq] at hs
    obtain ⟨rfl, hs2⟩ := hs
    have hnext : ∃ x, (h a).next = some x := by
      cases A with
      | nil => exact ⟨b, by simpa using hs2⟩
      | cons a' A' =>
        simp only [dllSeg_cons, Bool.and_eq_true, beq_iff_eq] at hs2
        exact ⟨a', hs2.1⟩
    obtain ⟨x, hx⟩ := hnext
    rw [hx] at hs2
    simpa [List.length_cons, dllAdvance, hx] using ih hs2

theorem dllIterSkip_seg {h : Nat → ListNode2} {cur m : Option Nat} {A : List Nat}
    (hs : dllSeg h cur A m = true) :
    dllIterSkip h cur A.length = m := by
  induction A generalizing cur with
  | nil =>
    simp only [dllSeg_nil, beq_iff_eq] at hs
    subst hs
    rfl
  | cons a A ih =>
    simp only [dllSeg_cons, Bool.and_eq_true, beq_iff_eq] at hs
    obtain ⟨rfl, hs2⟩ := hs
    simpa [dllIterSkip] using ih hs2

theorem dll_skip_to {h : Nat → ListNode2} {hd m : Option Nat} {A B : List Nat} {b : Nat}
    (hseg : dllSeg h hd (A ++ b :: B) m = true) :
    dllIterSkip h hd A.length = some b := by
  obtain ⟨m', h1, h2⟩ := dllSeg_split hseg
  simp only [dllSeg_cons, Bool.and_eq_true, beq_iff_eq] at h2
  rw [dllIterSkip_seg h1, h2.1]

theorem dll_advance_to {h : Nat → ListNode2} {hd m : Option Nat} {A B : List Nat} {b : Nat}
    (hseg : dllSeg h hd (A ++ b :: B) m = true) :
    dllAdvance h hd A.length = .ok (some b) := by
  obtain ⟨m', h1, h2⟩ := dllSeg_split hseg
  simp only [dllSeg_cons, Bool.and_eq_true, beq_iff_eq] at h2
  rw [h2.1] at h1
  exact dllAdvance_seg h1

theorem dllSeg_next_of_mem_ne_last {h : Nat → ListNode2} :
    ∀ (l : List Nat) (cur : Option Nat), dllSeg h cur l none = true →
      ∀ a ∈ l, some a ≠ l.getLast? → ∃ b, (h a).next = some b := by
  intro l
  induction l with
  | nil =>
    intro cur _ a ha
    simp at ha
  | cons c l ih =>
    intro cur hseg a ha hne
    simp only [dllSeg_cons, Bool.and_eq_true, beq_iff_eq] at hseg
    obtain ⟨rfl, hseg2⟩ := hseg
    rcases List.mem_cons.mp ha with rfl | ha2
    · cases l with
      | nil => exact ((hne (by simp)).elim)
      | cons b l' =>
        simp only [dllSeg_cons, Bool.and_eq_true, beq_iff_eq] at hseg2
        exact ⟨b, hseg2.1⟩
    · have hlne : l ≠ [] := List.ne_nil_of_mem ha2
      have hgl : (c :: l).getLast? = l.getLast? := by
        cases l with
        | nil => exact absurd rfl hlne
        | cons x xs => simp [List.getLast?_cons_cons]
      exact ih ((h c).next) hseg2 a ha2 (by rw [← hgl]; exact hne)

/-- Backward-link correctness along a chain: the first node's `prev` is `p`
and every later node's `prev` is its predecessor in the list. -/
def dllBack (h : Nat → ListNode2) : Option Nat → List Nat → Bool
  | _, [] => true
  | p, a :: l => ((h a).prev == p) && dllBack h (some a) l

@[simp] theorem dllBack_nil (h : Nat → ListNode2) (p : Option Nat) :
    dllBack h p [] = true := rfl

@[simp] theorem dllBack_cons (h : Nat → ListNode2) (p : Option Nat) (a : Nat) (l : List Nat) :
    dllBack h p (a :: l) = (((h a).prev == p) && dllBack h (some a) l) := rfl

theorem dllBack_congr {h h' : Nat → ListNode2} {p : Option Nat} {l : List Nat}
    (hagree : ∀ a ∈ l, (h' a).prev = (h a).prev) :
    dllBack h' p l = dllBack h p l := by
  induction l generalizing p with
  | nil => rfl
  | cons a l ih =>
    simp only [dllBack_cons, hagree a (by simp)]
    rw [ih fun b hb => hagree b (by simp [hb])]

theorem dllBack_at {h : Nat → ListNode2} :
    ∀ (X : List Nat) (x a : Nat) (Y : List Nat) (p : Option Nat),
      dllBack h p (X ++ x :: a :: Y) = true → (h a).prev = some x := by
  intro X
  induction X with
  | nil =>
    intro x a Y p hb
    simp only [List.nil_append, dllBack_cons, Bool.and_eq_true, beq_iff_eq] at hb
    exact hb.2.1
  | cons z X ih =>
    intro x a Y p hb
    simp only [List.cons_append, dllBack_cons, Bool.and_eq_true, beq_iff_eq] at hb
    exact ih x a Y (some z) hb.2

theorem dllBack_head {h : Nat → ListNode2} {p : Option Nat} {a : Nat} {l : List Nat}
    (hb : dllBack h p (a :: l) = true) : (h a).prev = p := by
  simp only [dllBack_cons, Bool.and_eq_true, beq_iff_eq] at hb
  exact hb.1

theorem dllBack_concat {h : Nat → ListNode2} :
    ∀ (l : List Nat) (p : Option Nat) (a : Nat),
      dllBack h p l = true → (h a).prev = (l.getLast?).elim p some →
      dllBack h p (l ++ [a]) = true := by
  intro l
  induction l with
  | nil =>
    intro p a _ hprev
    simp [dllBack, hprev]
  | cons b l ih =>
    intro p a hb hprev
    simp only [dllBack_cons, Bool.and_eq_true, beq_iff_eq] at hb
    simp only [List.cons_append, dllBack_cons, Bool.and_eq_true, beq_iff_eq]
    refine ⟨hb.1, ?_⟩
    refine ih (some b) a hb.2 ?_
    cases l with
    | nil =>
      simpa using hprev
    | cons x xs =>
      obtain ⟨g, hg⟩ : ∃ g, (x :: xs).getLast? = some g := by
        cases hgl : (x :: xs).getLast? with
        | none => simp at hgl
        | some g => exact ⟨g, rfl⟩
      rw [hprev, List.getLast?_cons_cons, hg]
      rfl

/-- Well-formedness of a doubly-linked list state: forward chain `l` from
`head`, symmetric backward links, `tail` the last node, `size` the length,
distinct fresh-bounded addresses, and length within `usize` range. -/
def WF2 (st : LinkedList2) (l : List Nat) : Prop :=
  dllSeg st.heap st.head l none = true ∧
  dllBack st.heap none l = true ∧
  st.tail = l.getLast? ∧
  st.size = l.length ∧
  l.Nodup ∧
  (∀ a ∈ l, a < st.fresh) ∧
  l.length < USZM

/-- Content handles held by the nodes of an address list (doubly-linked heap). -/
def contentsOf2 (h : Nat → ListNode2) (l : List Nat) : List Nat :=
  l.map fun a => (h a).content

theorem WF2_new : WF2 LinkedList2.new [] := by
  refine ⟨rfl, rfl, rfl, rfl, List.nodup_nil, ?_, ?_⟩
  · intro a ha
    simp at ha
  · unfold USZM
    norm_num

theorem dll_elems_of_seg (st : LinkedList2) {l : List Nat}
    (hseg : dllSeg st.heap st.head l none = true) (fuel : Nat) (hf : l.length ≤ fuel) :
    st.elems fuel = contentsOf2 st.heap l := by
  unfold LinkedList2.elems contentsOf2
  rw [dllChain_of_seg hseg fuel hf]

theorem dll_add_eq_of_no_tail {st : LinkedList2} (ht : st.tail = none) (x : Nat) :
    st.add x =
      { st with
        heap := hset2 st.heap st.fresh ⟨x, none, none⟩,
        fresh := st.fresh + 1,
        head := some st.fresh,
        tail := some st.fresh,
        size := uszAdd1 st.size } := by
  simp [LinkedList2.add, ht]

theorem dll_add_heap_spec {st : LinkedList2} {t : Nat} (ht : st.tail = some t)
    (htf : t ≠ st.fresh) (hnext : (st.heap t).next = none) (x : Nat) :
    (st.add x).fresh = st.fresh + 1 ∧ (st.add x).head = st.head ∧
    (st.add x).tail = some st.fresh ∧ (st.add x).size = uszAdd1 st.size ∧
    (st.add x).heap t = ⟨(st.heap t).content, (st.heap t).prev, some st.fresh⟩ ∧
    (st.add x).heap st.fresh = ⟨x, some t, none⟩ ∧
    ∀ a, a ≠ t → a ≠ st.fresh → (st.add x).heap a = st.heap a := by
  have hft : ¬(st.fresh = t) := fun hc => htf hc.symm
  refine ⟨?_, ?_, ?_, ?_, ?_, ?_, ?_⟩
  · simp [LinkedList2.add, ht, link_nodes, break_link0, break_link1]
  · simp [LinkedList2.add, ht, link_nodes, break_link0, break_link1]
  · simp [LinkedList2.add, ht, link_nodes, break_link0, break_link1]
  · simp [LinkedList2.add, ht, link_nodes, break_link0, break_link1]
  · simp [LinkedList2.add, ht, link_nodes, break_link0, break_link1, hset2, htf, hft, hnext]
  · simp [LinkedList2.add, ht, link_nodes, break_link0, break_link1, hset2, htf, hft, hnext]
  · intro a ha1 ha2
    simp [LinkedList2.add, ht, link_nodes, break_link0, break_link1, hset2, htf, hft,
      hnext, ha1, ha2]

theorem dll_add_spec {st : LinkedList2} {l : List Nat} (hwf : WF2 st l) (x : Nat)
    (hlen : l.length + 1 < USZM) :
    WF2 (st.add x) (l ++ [st.fresh]) ∧
    contentsOf2 (st.add x).heap (l ++ [st.fresh]) = contentsOf2 st.heap l ++ [x] := by
  obtain ⟨hseg, hback, htail, hsize, hnd, hfr, hbound⟩ := hwf
  rcases List.eq_nil_or_concat l with rfl | ⟨D, t, hl⟩
  · rw [dll_add_eq_of_no_tail (by simpa using htail) x]
    refine ⟨⟨?_, ?_, ?_, ?_, ?_, ?_, ?_⟩, ?_⟩
    · simp [dllSeg, hset2]
    · simp [dllBack, hset2]
    · simp
    · simp only [List.length_nil] at hsize
      simp only [hsize, List.nil_append, List.length_cons, List.length_nil]
      decide
    · simp
    · simp
    · simpa using hlen
    · simp [contentsOf2, hset2]
  · rw [List.concat_eq_append] at hl
    subst hl
    have htmem : t ∈ D ++ [t] := by simp
    have htf : t ≠ st.fresh := Nat.ne_of_lt (hfr t htmem)
    have htail' : st.tail = some t := by simpa using htail
    obtain ⟨m, hm1, hm2⟩ := dllSeg_split hseg
    have hmp : m = some t := by
      simp only [dllSeg_cons, Bool.and_eq_true, beq_iff_eq] at hm2
      exact hm2.1
    subst hmp
    simp only [dllSeg_cons, dllSeg_nil, Bool.and_eq_true, beq_iff_eq, true_and] at hm2
    have hnext : (st.heap t).next = none := by simpa using hm2
    obtain ⟨hfr', hhd', htl', hsz', hht, hhf, hho⟩ :=
      dll_add_heap_spec htail' htf hnext x
    have htD : t ∉ D := by
      have hdisj := List.disjoint_of_nodup_append hnd
      intro hc
      exact List.disjoint_left.mp hdisj hc (by simp)
    have hfD : st.fresh ∉ D := by
      intro hc
      have hlt := hfr st.fresh (by simp [hc])
      omega
    have hagree : ∀ a ∈ D, (st.add x).heap a = st.heap a := by
      intro a ha
      exact hho a (by rintro rfl; exact htD ha) (Nat.ne_of_lt (hfr a (by simp [ha])))
    refine ⟨⟨?_, ?_, ?_, ?_, ?_, ?_, ?_⟩, ?_⟩
    · have hDseg : dllSeg (st.add x).heap st.head D (some t) = true := by
        rw [dllSeg_congr fun a ha => by rw [hagree a ha]]
        exact hm1
      have htseg : dllSeg (st.add x).heap (some t) [t, st.fresh] none = true := by
        simp [dllSeg, hht, hhf]
      have hfull := dllSeg_append hDseg htseg
      rw [hhd']
      simpa [List.append_assoc] using hfull
    · have hbackl : dllBack (st.add x).heap none (D ++ [t]) = true := by
        have : ∀ a ∈ D ++ [t], ((st.add x).heap a).prev = (st.heap a).prev := by
          intro a ha
          rcases List.mem_append.mp ha with ha | ha
          · rw [hagree a ha]
          · have : a = t := by simpa using ha
            subst this
            rw [hht]
        rw [dllBack_congr this]
        exact hback
      refine dllBack_concat (D ++ [t]) none st.fresh hbackl ?_
      rw [hhf]
      simp
    · rw [htl']
      simp
    · rw [hsz', hsize]
      rw [uszAdd1_eq (by simpa using hlen)]
      simp
    · simp only [List.append_assoc, List.singleton_append]
      rw [List.nodup_append] at hnd ⊢
      refine ⟨hnd.1, ?_, ?_⟩
      · simp [htf]
      · intro a haD hb
        simp only [List.mem_cons, List.not_mem_nil, or_false] at hb
        rcases hb with rfl | rfl
        · exact htD haD
        · exact hfD haD
    · intro a ha
      rw [hfr']
      rcases List.mem_append.mp ha with h1 | h1
      · exact Nat.lt_succ_of_lt (hfr a h1)
      · have ha2 : a = st.fresh := by simpa using h1
        subst ha2
        exact Nat.lt_succ_self _
    · simp only [List.length_append, List.length_cons, List.length_nil] at hlen ⊢
      omega
    · unfold contentsOf2
      rw [List.map_append]
      congr 1
      · rw [List.map_append, List.map_append]
        congr 1
        · exact List.map_congr_left fun a ha => by rw [hagree a ha]
        · simp only [List.map_cons, List.map_nil, hht]
      · simp only [List.map_cons, List.map_nil, hhf]

theorem dllCloneLoop_spec {h : Nat → ListNode2} :
    ∀ (rest : List Nat) (cur : Option Nat) (acc : LinkedList2) (lacc : List Nat) (fuel : Nat),
      dllSeg h cur rest none = true → WF2 acc lacc →
      lacc.length + rest.length < USZM → rest.length ≤ fuel →
      ∃ lr, WF2 (dllCloneLoop h acc cur fuel) lr ∧
        contentsOf2 (dllCloneLoop h acc cur fuel).heap lr =
          contentsOf2 acc.heap lacc ++ contentsOf2 h rest := by
  intro rest
  induction rest with
  | nil =>
    intro cur acc lacc fuel hseg hwf _ _
    simp only [dllSeg_nil, beq_iff_eq] at hseg
    subst hseg
    have hloop : dllCloneLoop h acc none fuel = acc := by cases fuel <;> rfl
    rw [hloop]
    exact ⟨lacc, hwf, by simp [contentsOf2]⟩
  | cons a rest ih =>
    intro cur acc lacc fuel hseg hwf hlen hf
    simp only [dllSeg_cons, Bool.and_eq_true, beq_iff_eq] at hseg
    obtain ⟨rfl, hseg2⟩ := hseg
    cases fuel with
    | zero => simp at hf
    | succ n =>
      have hstep :
          dllCloneLoop h acc (some a) (n + 1) =
            dllCloneLoop h (acc.add (h a).content) ((h a).next) n := rfl
      rw [hstep]
      have hlacc : lacc.length + 1 < USZM := by
        simp only [List.length_cons] at hlen
        omega
      obtain ⟨hwf', hcont⟩ := dll_add_spec hwf ((h a).content) hlacc
      have hlen' : (lacc ++ [acc.fresh]).length + rest.length < USZM := by
        simp only [List.length_append, List.length_cons, List.length_nil] at hlen ⊢
        omega
      obtain ⟨lr, hlr, hlrc⟩ :=
        ih ((h a).next) (acc.add (h a).content) (lacc ++ [acc.fresh]) n hseg2 hwf'
          hlen' (by simpa using Nat.le_of_succ_le_succ hf)
      refine ⟨lr, hlr, ?_⟩
      rw [hlrc, hcont]
      simp [contentsOf2]

theorem dll_clone_spec {st : LinkedList2} {l : List Nat}
    (hseg : dllSeg st.heap st.head l none = true) (hlen : l.length < USZM)
    {fuel : Nat} (hf : l.length ≤ fuel) :
    ∃ lr, WF2 (st.clone fuel) lr ∧
      contentsOf2 (st.clone fuel).heap lr = contentsOf2 st.heap l := by
  obtain ⟨lr, h1, h2⟩ :=
    dllCloneLoop_spec l st.head LinkedList2.new [] fuel hseg WF2_new (by simpa) hf
  exact ⟨lr, h1, by simpa [contentsOf2] using h2⟩

theorem dllContainsLoop_spec {h : Nat → ListNode2} {item : Nat} :
    ∀ (r : List Nat) (cur : Option Nat) (fuel : Nat) (acc : Bool),
      dllSeg h cur r none = true → r.length ≤ fuel →
      dllContainsLoop h item cur fuel acc = (acc || (contentsOf2 h r).contains item) := by
  intro r
  induction r with
  | nil =>
    intro cur fuel acc hseg _
    simp only [dllSeg_nil, beq_iff_eq] at hseg
    subst hseg
    cases fuel <;> simp [dllContainsLoop, contentsOf2]
  | cons a r ih =>
    intro cur fuel acc hseg hf
    simp only [dllSeg_cons, Bool.and_eq_true, beq_iff_eq] at hseg
    obtain ⟨rfl, hseg2⟩ := hseg
    cases fuel with
    | zero => simp at hf
    | succ n =>
      have hstep :
          dllContainsLoop h item (some a) (n + 1) acc =
            dllContainsLoop h item ((h a).next) n (acc || ((h a).content == item)) := rfl
      rw [hstep, ih ((h a).next) n _ hseg2 (by simpa using Nat.le_of_succ_le_succ hf)]
      by_cases hx : item = (h a).content
      · simp [contentsOf2, Bool.or_assoc, BEq.comm, hx]
      · simp [contentsOf2, Bool.or_assoc, BEq.comm, hx, beq_eq_false_iff_ne.mpr hx]

/-- `contains` for the doubly-linked list is identity membership among the
stored content handles. -/
theorem dll_contains_spec {st : LinkedList2} {l : List Nat} (hwf : WF2 st l) (item : Nat)
    {fuel : Nat} (hf : l.length ≤ fuel) :
    (st.contains item fuel = true ↔ item ∈ contentsOf2 st.heap l) := by
  unfold LinkedList2.contains
  obtain ⟨lr, hwfc, hcont⟩ := dll_clone_spec hwf.1 hwf.2.2.2.2.2.2 hf
  have hlrlen : lr.length = l.length := by
    have := congrArg List.length hcont
    simpa [contentsOf2] using this
  rw [dllContainsLoop_spec lr _ fuel false hwfc.1 (by omega)]
  rw [hcont]
  simp [List.contains_iff_exists_mem_beq, contentsOf2]

theorem dll_index_check_ok {st : LinkedList2} {i : Nat} (hlt : i < st.size) :
    st.index_check i = .ok () := by
  unfold LinkedList2.index_check
  rw [if_neg]
  omega

theorem dll_get_spec (st : LinkedList2) {L A B : List Nat} {b : Nat}
    (hseg : dllSeg st.heap st.head L none = true) (hL : L = A ++ b :: B)
    (hidx : A.length < st.size) (hlen : L.length < USZM)
    (fuel : Nat) (hf : L.length ≤ fuel) :
    st.get A.length fuel = .ok ((st.heap b).content) := by
  subst hL
  have hchk : st.index_check A.length = .ok () := dll_index_check_ok hidx
  obtain ⟨lr, hwf, hcont⟩ := dll_clone_spec hseg hlen hf
  have hlrlen : lr.length = (A ++ b :: B).length := by
    have := congrArg List.length hcont
    simpa [contentsOf2] using this
  have hilt : A.length < lr.length := by
    rw [hlrlen]
    simp
  obtain ⟨c, lrB, hdrop⟩ :=
    List.exists_cons_of_ne_nil (l := lr.drop A.length)
      (by
        intro hc
        have := List.length_drop A.length lr
        rw [hc] at this
        simp at this
        omega)
  have hlrsplit : lr = lr.take A.length ++ c :: lrB := by
    rw [← hdrop, List.take_append_drop]
  have htklen : (lr.take A.length).length = A.length := by
    rw [List.length_take]
    exact Nat.min_eq_left (Nat.le_of_lt hilt)
  have hskip :
      dllIterSkip (st.clone fuel).heap (st.clone fuel).head A.length = some c := by
    have hseg' := hwf.1
    rw [hlrsplit] at hseg'
    have := dll_skip_to hseg'
    rwa [htklen] at this
  have hcontent : ((st.clone fuel).heap c).content = (st.heap b).content := by
    rw [hlrsplit] at hcont
    unfold contentsOf2 at hcont
    rw [List.map_append, List.map_append] at hcont
    have hlencast :
        ((lr.take A.length).map fun a => ((st.clone fuel).heap a).content).length =
          (A.map fun a => (st.heap a).content).length := by
      simp only [List.length_map]
      exact htklen
    obtain ⟨h1, h2⟩ := List.append_inj hcont hlencast
    simpa using congrArg List.head? h2
  unfold LinkedList2.get
  simp only [hchk]
  simp only [hskip]
  show Except.ok ((st.clone fuel).heap c).content = Except.ok ((st.heap b).content)
  rw [hcontent]

theorem dll_interior_rewire {h : Nat → ListNode2} {orig p : Nat} (fresh item : Nat)
    (hprev : (h orig).prev = some p) (hop : orig ≠ p) (hof : orig ≠ fresh)
    (hpf : p ≠ fresh) :
    (break_link0 h orig).1 = some p ∧
    (link_nodes (hset2 (break_link0 h orig).2 fresh ⟨item, none, some orig⟩) p fresh).2 p =
      ⟨(h p).content, (h p).prev, some fresh⟩ ∧
    (link_nodes (hset2 (break_link0 h orig).2 fresh ⟨item, none, some orig⟩) p fresh).2
      fresh = ⟨item, some p, some orig⟩ ∧
    (link_nodes (hset2 (break_link0 h orig).2 fresh ⟨item, none, some orig⟩) p fresh).2
      orig = ⟨(h orig).content, none, (h orig).next⟩ ∧
    ∀ a, a ≠ p → a ≠ fresh → a ≠ orig →
      (link_nodes (hset2 (break_link0 h orig).2 fresh ⟨item, none, some orig⟩) p fresh).2
        a = h a := by
  have hpo : ¬(p = orig) := fun hc => hop hc.symm
  have hfo : ¬(fresh = orig) := fun hc => hof hc.symm
  have hfp : ¬(fresh = p) := fun hc => hpf hc.symm
  refine ⟨?_, ?_, ?_, ?_, ?_⟩
  · simp [break_link0, hprev]
  · simp [break_link0, break_link1, link_nodes, hset2, hprev, hop, hof, hpf, hpo, hfo, hfp]
  · simp [break_link0, break_link1, link_nodes, hset2, hprev, hop, hof, hpf, hpo, hfo, hfp]
  · simp [break_link0, break_link1, link_nodes, hset2, hprev, hop, hof, hpf, hpo, hfo, hfp]
  · intro a ha1 ha2 ha3
    simp [break_link0, break_link1, link_nodes, hset2, hprev, hop, hof, hpf, hpo, hfo, hfp,
      ha1, ha2, ha3]

/-- Head insertion (`index == 0`) for the doubly-linked list: the new node is
prepended to the forward chain (the old head's backward link is left as it
was), and `size` is incremented. -/
theorem dll_insert_at_head {st : LinkedList2} {l : List Nat} (hwf : WF2 st l) (item : Nat)
    (hne : l ≠ []) :
    (st.insert_at item 0).1 = .ok () ∧
    (st.insert_at item 0).2 =
      { st with
        heap := hset2 st.heap st.fresh ⟨item, none, st.head⟩,
        fresh := st.fresh + 1,
        head := some st.fresh,
        size := uszAdd1 st.size } ∧
    dllSeg (hset2 st.heap st.fresh ⟨item, none, st.head⟩) (some st.fresh)
      (st.fresh :: l) none = true ∧
    contentsOf2 (hset2 st.heap st.fresh ⟨item, none, st.head⟩) (st.fresh :: l) =
      item :: contentsOf2 st.heap l := by
  obtain ⟨hseg, hback, htail, hsize, hnd, hfr, hbound⟩ := hwf
  have hpos : 0 < st.size := by
    rw [hsize]
    cases l with
    | nil => exact absurd rfl hne
    | cons a l => exact Nat.succ_pos _
  have hchk : st.index_check 0 = .ok () := dll_index_check_ok hpos
  have hfnotl : ∀ a ∈ l, a ≠ st.fresh := fun a ha => Nat.ne_of_lt (hfr a ha)
  refine ⟨?_, ?_, ?_, ?_⟩
  · unfold LinkedList2.insert_at
    rw [hchk]
    simp
  · unfold LinkedList2.insert_at
    rw [hchk]
    simp
  · simp only [dllSeg_cons, Bool.and_eq_true, beq_iff_eq, hset2_same]
    refine ⟨by simp, ?_⟩
    rw [dllSeg_congr fun a ha => by rw [hset2_ne _ _ _ (hfnotl a ha)]]
    exact hseg
  · unfold contentsOf2
    simp only [List.map_cons, hset2_same]
    congr 1
    exact List.map_congr_left fun a ha => by rw [hset2_ne _ _ _ (hfnotl a ha)]

/-- Tail-index insertion (`index == size - 1` with `index ≥ 1`) for the
doubly-linked list is an append: the item lands after the old tail. -/
theorem dll_insert_at_last {st : LinkedList2} {l : List Nat} (hwf : WF2 st l) (item : Nat)
    {i : Nat} (hi1 : 1 ≤ i) (hilast : i = l.length - 1)
    (hlen : l.length + 1 < USZM) {fuel : Nat} (hf : l.length + 1 ≤ fuel) :
    (st.insert_at item i).1 = .ok () ∧
    (st.insert_at item i).2.elems fuel = contentsOf2 st.heap l ++ [item] := by
  have hseg := hwf.1
  have hsize := hwf.2.2.2.1
  have hllen : 2 ≤ l.length := by omega
  have hlt : i < st.size := by
    rw [hsize]
    omega
  have hchk := dll_index_check_ok hlt
  have hne0 : ¬(i = 0) := by omega
  have heq : i = st.size - 1 := by
    rw [hsize]
    omega
  have hred : st.insert_at item i = (.ok (), st.add item) := by
    unfold LinkedList2.insert_at
    rw [hchk, if_neg hne0, if_pos heq]
  obtain ⟨hwf', hcont'⟩ := dll_add_spec hwf item hlen
  refine ⟨by rw [hred], ?_⟩
  rw [hred]
  have := dll_elems_of_seg _ hwf'.1 fuel (by simpa using hf)
  rw [this, hcont']

/-- Interior insertion (`1 ≤ index < size - 1`) for the doubly-linked list:
the forward chain acquires the new node between predecessor and `orig`
(`orig`'s backward link is left cleared by `break_link0`), and `size` is
incremented. -/
theorem dll_insert_at_mid {st : LinkedList2} {l : List Nat} (hwf : WF2 st l) (item : Nat)
    {i : Nat} (hi1 : 1 ≤ i) (hi2 : i + 1 < l.length) :
    ∃ A p orig C2,
      l = A ++ p :: orig :: C2 ∧ A.length = i - 1 ∧
      (st.insert_at item i).1 = .ok () ∧
      (st.insert_at item i).2.head = st.head ∧
      (st.insert_at item i).2.size = uszAdd1 st.size ∧
      ((st.insert_at item i).2.heap st.fresh).content = item ∧
      dllSeg (st.insert_at item i).2.heap st.head
        (A ++ p :: st.fresh :: orig :: C2) none = true ∧
      contentsOf2 (st.insert_at item i).2.heap (A ++ p :: st.fresh :: orig :: C2) =
        (contentsOf2 st.heap l).take i ++ item :: (contentsOf2 st.heap l).drop i := by
  obtain ⟨hseg, hback, htail, hsize, hnd, hfr, hbound⟩ := hwf
  obtain ⟨A, p, C, hsplit, hAlen⟩ := list_split_at l (i - 1) (by omega)
  have hClen : 2 ≤ C.length := by
    have := congrArg List.length hsplit
    simp only [List.length_append, List.length_cons] at this
    omega
  obtain ⟨orig, C2, rfl⟩ : ∃ orig C2, C = orig :: C2 := by
    cases C with
    | nil => simp at hClen
    | cons x xs => exact ⟨x, xs, rfl⟩
  subst hsplit
  have hlen4 : (A ++ p :: orig :: C2).length = A.length + C2.length + 2 := by
    simp only [List.length_append, List.length_cons]
    omega
  have hpA : p ∉ A := by
    have hdisj := List.disjoint_of_nodup_append hnd
    intro hc
    exact List.disjoint_left.mp hdisj hc (by simp)
  have hoA : orig ∉ A := by
    have hdisj := List.disjoint_of_nodup_append hnd
    intro hc
    exact List.disjoint_left.mp hdisj hc (by simp)
  have hndr := List.Nodup.of_append_right hnd
  have hpC : p ∉ orig :: C2 := (List.nodup_cons.mp hndr).1
  have hop : orig ≠ p := fun hc => hpC (by simp [hc])
  have hoC2 : orig ∉ C2 := (List.nodup_cons.mp (List.nodup_cons.mp hndr).2).1
  have hfrP : p < st.fresh := hfr p (by simp)
  have hfrO : orig < st.fresh := hfr orig (by simp)
  have hfrA : ∀ a ∈ A, a < st.fresh := fun a ha => hfr a (by simp [ha])
  have hfrC : ∀ a ∈ C2, a < st.fresh := fun a ha => hfr a (by simp [ha])
  have hpf : p ≠ st.fresh := Nat.ne_of_lt hfrP
  have hof : orig ≠ st.fresh := Nat.ne_of_lt hfrO
  obtain ⟨m, hA, hC⟩ := dllSeg_split hseg
  have hmp : m = some p := by
    simp only [dllSeg_cons, Bool.and_eq_true, beq_iff_eq] at hC
    exact hC.1
  subst hmp
  simp only [dllSeg_cons, Bool.and_eq_true, beq_iff_eq, true_and] at hC
  have hplink : (st.heap p).next = some orig := hC.1
  have horigseg : dllSeg st.heap (some orig) (orig :: C2) none = true := by
    simp only [dllSeg_cons, Bool.and_eq_true, beq_iff_eq, true_and]
    exact hC.2
  have hprev : (st.heap orig).prev = some p := dllBack_at A p orig C2 none hback
  have hchk := @dll_index_check_ok st i (by rw [hsize, hlen4]; omega)
  have hne0 : ¬(i = 0) := by omega
  have hneLast : ¬(i = st.size - 1) := by
    rw [hsize, hlen4]
    omega
  have hgn : st.get_node_at i = .ok orig := by
    unfold LinkedList2.get_node_at
    rw [hchk]
    have hsegassoc :
        dllSeg st.heap st.head ((A ++ [p]) ++ orig :: C2) none = true := by
      simpa [List.append_assoc] using hseg
    have hadv := dll_advance_to hsegassoc
    have hAplen : (A ++ [p]).length = i := by
      simp only [List.length_append, List.length_cons, List.length_nil]
      omega
    rw [hAplen] at hadv
    rw [hadv]
  obtain ⟨hr1, hp', hf', ho', hother⟩ :=
    dll_interior_rewire (h := st.heap) st.fresh item hprev hop hof hpf
  have hred :
      st.insert_at item i =
        (.ok (),
          { st with
            heap := (link_nodes (hset2 (break_link0 st.heap orig).2 st.fresh
              ⟨item, none, some orig⟩) p st.fresh).2,
            fresh := st.fresh + 1,
            size := uszAdd1 st.size }) := by
    unfold LinkedList2.insert_at
    rw [hchk]
    simp only [hne0, hneLast, ite_false, hgn, hr1]
  have hagreeA :
      ∀ a ∈ A,
        (link_nodes (hset2 (break_link0 st.heap orig).2 st.fresh
          ⟨item, none, some orig⟩) p st.fresh).2 a = st.heap a := by
    intro a ha
    refine hother a ?_ ?_ ?_
    · rintro rfl; exact hpA ha
    · exact Nat.ne_of_lt (hfrA a ha)
    · rintro rfl; exact hoA ha
  have hagreeC :
      ∀ a ∈ C2,
        (link_nodes (hset2 (break_link0 st.heap orig).2 st.fresh
          ⟨item, none, some orig⟩) p st.fresh).2 a = st.heap a := by
    intro a ha
    refine hother a ?_ ?_ ?_
    · rintro rfl; exact hpC (by simp [ha])
    · exact Nat.ne_of_lt (hfrC a ha)
    · rintro rfl; exact hoC2 ha
  refine ⟨A, p, orig, C2, rfl, hAlen, by rw [hred], by rw [hred], by rw [hred], ?_, ?_, ?_⟩
  · rw [hred]
    show ((link_nodes (hset2 (break_link0 st.heap orig).2 st.fresh
      ⟨item, none, some orig⟩) p st.fresh).2 st.fresh).content = item
    rw [hf']
  · rw [hred]
    show dllSeg ((link_nodes (hset2 (break_link0 st.heap orig).2 st.fresh
      ⟨item, none, some orig⟩) p st.fresh).2) st.head
      (A ++ p :: st.fresh :: orig :: C2) none = true
    have hAseg :
        dllSeg ((link_nodes (hset2 (break_link0 st.heap orig).2 st.fresh
          ⟨item, none, some orig⟩) p st.fresh).2) st.head A (some p) = true := by
      rw [dllSeg_congr fun a ha => by rw [hagreeA a ha]]
      exact hA
    have hmidseg :
        dllSeg ((link_nodes (hset2 (break_link0 st.heap orig).2 st.fresh
          ⟨item, none, some orig⟩) p st.fresh).2) (some p) [p, st.fresh]
          (some orig) = true := by
      simp [dllSeg, hp', hf']
    have hCseg :
        dllSeg ((link_nodes (hset2 (break_link0 st.heap orig).2 st.fresh
          ⟨item, none, some orig⟩) p st.fresh).2) (some orig) (orig :: C2) none = true := by
      simp only [dllSeg_cons, Bool.and_eq_true, beq_iff_eq, true_and, ho']
      show (dllSeg _ ((st.heap orig).next) C2 none = true)
      rw [dllSeg_congr fun a ha => by rw [hagreeC a ha]]
      exact hC.2
    have hfull := dllSeg_append hAseg (dllSeg_append hmidseg hCseg)
    simpa using hfull
  · rw [hred]
    show contentsOf2 ((link_nodes (hset2 (break_link0 st.heap orig).2 st.fresh
      ⟨item, none, some orig⟩) p st.fresh).2) (A ++ p :: st.fresh :: orig :: C2) =
      (contentsOf2 st.heap (A ++ p :: orig :: C2)).take i ++
        item :: (contentsOf2 st.heap (A ++ p :: orig :: C2)).drop i
    have htake :
        (contentsOf2 st.heap (A ++ p :: orig :: C2)).take i =
          List.map (fun a => (st.heap a).content) A ++ [(st.heap p).content] := by
      unfold contentsOf2
      have h1 : List.map (fun a => (st.heap a).content) (A ++ p :: orig :: C2) =
          (List.map (fun a => (st.heap a).content) A ++ [(st.heap p).content]) ++
            List.map (fun a => (st.heap a).content) (orig :: C2) := by
        simp
      rw [h1, List.take_left']
      simp only [List.length_append, List.length_map, List.length_cons, List.length_nil]
      omega
    have hdrop :
        (contentsOf2 st.heap (A ++ p :: orig :: C2)).drop i =
          List.map (fun a => (st.heap a).content) (orig :: C2) := by
      unfold contentsOf2
      have h1 : List.map (fun a => (st.heap a).content) (A ++ p :: orig :: C2) =
          (List.map (fun a => (st.heap a).content) A ++ [(st.heap p).content]) ++
            List.map (fun a => (st.heap a).content) (orig :: C2) := by
        simp
      rw [h1, List.drop_left']
      simp only [List.length_append, List.length_map, List.length_cons, List.length_nil]
      omega
    have hcA :
        List.map (fun a =>
            ((link_nodes (hset2 (break_link0 st.heap orig).2 st.fresh
              ⟨item, none, some orig⟩) p st.fresh).2 a).content) A =
          List.map (fun a => (st.heap a).content) A :=
      List.map_congr_left fun a ha => by rw [hagreeA a ha]
    have hcC2 :
        List.map (fun a =>
            ((link_nodes (hset2 (break_link0 st.heap orig).2 st.fresh
              ⟨item, none, some orig⟩) p st.fresh).2 a).content) C2 =
          List.map (fun a => (st.heap a).content) C2 :=
      List.map_congr_left fun a ha => by rw [hagreeC a ha]
    rw [htake, hdrop]
    unfold contentsOf2
    simp only [List.map_append, List.map_cons, hcA, hcC2, hp', hf', ho']
    simp

/-- Combined insert-position semantics for the doubly-linked list: for
`index = 0` or `1 ≤ index < size - 1`, `insert_at` succeeds, the forward
iteration sequence acquires `item` at position `index`, and `get(index)`
returns the inserted handle. -/
theorem dll_insert_at_ins {st : LinkedList2} {l : List Nat} (hwf : WF2 st l) (item : Nat)
    {i : Nat} (hcase : i = 0 ∧ l ≠ [] ∨ 1 ≤ i ∧ i + 1 < l.length)
    (hlen : l.length + 1 < USZM) {fuel : Nat} (hf : l.length + 1 ≤ fuel) :
    (st.insert_at item i).1 = .ok () ∧
    (st.insert_at item i).2.elems fuel =
      (contentsOf2 st.heap l).take i ++ item :: (contentsOf2 st.heap l).drop i ∧
    (st.insert_at item i).2.get i fuel = .ok item := by
  have hsize := hwf.2.2.2.1
  rcases hcase with ⟨rfl, hne⟩ | ⟨hi1, hi2⟩
  · obtain ⟨hok, hstate, hseg', hcont'⟩ := dll_insert_at_head hwf item hne
    have hsz' : uszAdd1 st.size = l.length + 1 := by
      rw [hsize]
      exact uszAdd1_eq hlen
    refine ⟨hok, ?_, ?_⟩
    · rw [hstate]
      have helems := dll_elems_of_seg
        { st with
          heap := hset2 st.heap st.fresh ⟨item, none, st.head⟩,
          fresh := st.fresh + 1,
          head := some st.fresh,
          size := uszAdd1 st.size } hseg' fuel (by simp; omega)
      rw [helems, hcont']
      simp
    · rw [hstate]
      have hget := dll_get_spec
          { st with
            heap := hset2 st.heap st.fresh ⟨item, none, st.head⟩,
            fresh := st.fresh + 1,
            head := some st.fresh,
            size := uszAdd1 st.size }
        (L := st.fresh :: l) (A := []) (B := l) (b := st.fresh) hseg' rfl
        (by simp [hsz']) (by simp; omega)
        fuel (by simp; omega)
      simpa [hset2_same] using hget
  · obtain ⟨A, p, orig, C2, hl, hAlen, hok, hhd', hsz', hfc, hseg', hcont'⟩ :=
      dll_insert_at_mid hwf item hi1 hi2
    have hlAlen : l.length = A.length + C2.length + 2 := by
      rw [hl]
      simp only [List.length_append, List.length_cons]
      omega
    have hsz'' : (st.insert_at item i).2.size = l.length + 1 := by
      rw [hsz', hsize]
      exact uszAdd1_eq hlen
    refine ⟨hok, ?_, ?_⟩
    · have hseg'' :
          dllSeg (st.insert_at item i).2.heap (st.insert_at item i).2.head
            (A ++ p :: st.fresh :: orig :: C2) none = true := by
        rw [hhd']
        exact hseg'
      have helems := dll_elems_of_seg _ hseg'' fuel
        (by
          simp only [List.length_append, List.length_cons]
          omega)
      rw [helems, hcont', hl]
    · have hseg'' :
          dllSeg (st.insert_at item i).2.heap (st.insert_at item i).2.head
            ((A ++ [p]) ++ st.fresh :: orig :: C2) none = true := by
        rw [hhd']
        simpa [List.append_assoc] using hseg'
      have hget := dll_get_spec (st.insert_at item i).2
        (L := (A ++ [p]) ++ st.fresh :: orig :: C2) (A := A ++ [p]) (B := orig :: C2)
        (b := st.fresh) hseg'' rfl
        (by
          simp only [List.length_append, List.length_cons, List.length_nil]
          rw [hsz'']
          omega)
        (by
          simp only [List.length_append, List.length_cons, List.length_nil]
          rw [hlAlen] at hlen
          omega)
        fuel
        (by
          simp only [List.length_append, List.length_cons, List.length_nil]
          rw [hlAlen] at hf
          omega)
      have hAplen : (A ++ [p]).length = i := by
        simp only [List.length_append, List.length_cons, List.length_nil]
        omega
      rw [hAplen] at hget
      rw [hget, hfc]

theorem dllFindLoop_step (h : Nat → ListNode2) (item c n : Nat) :
    dllFindLoop h item (some c) (n + 1) =
      if (h c).content = item then .ok (some c)
      else
        match (h c).next with
        | some nxt => dllFindLoop h item (some nxt) n
        | none => .ok none := rfl

theorem dllFindLoop_none (h : Nat → ListNode2) (item n : Nat) :
    dllFindLoop h item none (n + 1) = .error .UnexpectedError := rfl

theorem dllFindLoop_absent {h : Nat → ListNode2} {item : Nat} :
    ∀ (r : List Nat) (c : Nat) (fuel : Nat),
      dllSeg h (some c) (c :: r) none = true →
      (∀ a ∈ c :: r, (h a).content ≠ item) →
      r.length + 1 ≤ fuel →
      dllFindLoop h item (some c) fuel = .ok none := by
  intro r
  induction r with
  | nil =>
    intro c fuel hseg habs hf
    simp only [dllSeg_cons, dllSeg_nil, Bool.and_eq_true, beq_iff_eq, true_and] at hseg
    obtain ⟨n, rfl⟩ : ∃ n, fuel = n + 1 := ⟨fuel - 1, by omega⟩
    rw [dllFindLoop_step, if_neg (habs c (by simp))]
    rw [hseg]
  | cons b r ih =>
    intro c fuel hseg habs hf
    simp only [dllSeg_cons, Bool.and_eq_true, beq_iff_eq, true_and] at hseg
    obtain ⟨hlink, hseg2⟩ := hseg
    obtain ⟨n, rfl⟩ : ∃ n, fuel = n + 1 :=
      ⟨fuel - 1, by simp only [List.length_cons] at hf; omega⟩
    rw [dllFindLoop_step, if_neg (habs c (by simp))]
    simp only [hlink]
    exact ih b n (by simp [dllSeg, hseg2]) (fun a ha => habs a (by
      rcases List.mem_cons.mp ha with rfl | ha2
      · simp
      · simp [ha2]))
      (by simp only [List.length_cons] at hf ⊢; omega)


theorem dllFindLoop_found {h : Nat → ListNode2} {item : Nat} :
    ∀ (r : List Nat) (c : Nat) (fuel : Nat),
      dllSeg h (some c) (c :: r) none = true →
      item ∈ contentsOf2 h (c :: r) →
      r.length + 1 ≤ fuel →
      ∃ X target Y, c :: r = X ++ target :: Y ∧
        dllFindLoop h item (some c) fuel = .ok (some target) ∧
        (h target).content = item := by
  intro r
  induction r with
  | nil =>
    intro c fuel hseg hmem hf
    obtain ⟨n, rfl⟩ : ∃ n, fuel = n + 1 := ⟨fuel - 1, by omega⟩
    have hc : (h c).content = item := by
      simp only [contentsOf2, List.map_cons, List.map_nil, List.mem_singleton] at hmem
      exact hmem.symm
    rw [dllFindLoop_step, if_pos hc]
    exact ⟨[], c, [], rfl, rfl, hc⟩
  | cons b r ih =>
    intro c fuel hseg hmem hf
    simp only [dllSeg_cons, Bool.and_eq_true, beq_iff_eq, true_and] at hseg
    obtain ⟨hlink, hseg2⟩ := hseg
    obtain ⟨n, rfl⟩ : ∃ n, fuel = n + 1 :=
      ⟨fuel - 1, by simp only [List.length_cons] at hf; omega⟩
    by_cases hc : (h c).content = item
    · rw [dllFindLoop_step, if_pos hc]
      exact ⟨[], c, b :: r, rfl, rfl, hc⟩
    · rw [dllFindLoop_step, if_neg hc]
      simp only [hlink]
      have hmem2 : item ∈ contentsOf2 h (b :: r) := by
        simp only [contentsOf2, List.map_cons, List.mem_cons] at hmem ⊢
        rcases hmem with hmem | hmem
        · exact absurd hmem.symm hc
        · exact hmem
      obtain ⟨X, target, Y, hsp, h1, h2⟩ :=
        ih b n (by simp [dllSeg, hseg2]) hmem2
          (by simp only [List.length_cons] at hf ⊢; omega)
      exact ⟨c :: X, target, Y, by simp [hsp], h1, h2⟩

/-- `remove` on an empty doubly-linked list fails with `UnexpectedError`. -/
theorem dll_remove_empty {st : LinkedList2} (hwf : WF2 st []) (item fuel : Nat) :
    st.remove item fuel = (.error .UnexpectedError, st) := by
  have hsize := hwf.2.2.2.1
  unfold LinkedList2.remove
  rw [if_pos]
  rw [hsize]
  norm_num

/-- `remove` with an absent handle on a one-element doubly-linked list fails
with `UnexpectedError`: the search loop starts at the head's (empty) forward
link. -/
theorem dll_remove_absent_one {st : LinkedList2} {hd : Nat} (hwf : WF2 st [hd])
    {item : Nat} (habs : item ∉ contentsOf2 st.heap [hd]) {fuel : Nat} (hf : 1 ≤ fuel) :
    st.remove item fuel = (.error .UnexpectedError, st) := by
  obtain ⟨hseg, hback, htail, hsize, hnd, hfr, hbound⟩ := hwf
  simp only [dllSeg_cons, dllSeg_nil, Bool.and_eq_true, beq_iff_eq, true_and] at hseg
  obtain ⟨hhead, hnext⟩ := hseg
  have hsz1 : ¬st.size < 1 := by
    rw [hsize]
    norm_num
  have hhdne : ¬(st.heap hd).content = item := by
    intro hc
    exact habs (by simp [contentsOf2, hc])
  obtain ⟨n, rfl⟩ : ∃ n, fuel = n + 1 := ⟨fuel - 1, by omega⟩
  unfold LinkedList2.remove
  rw [if_neg hsz1, hhead]
  simp only [hhdne, ite_false, hnext, dllFindLoop_none]

/-- `remove` with an absent handle on a doubly-linked list of size at least two
fails with `ElementNotFound`, leaving the state unchanged. -/
theorem dll_remove_absent_big {st : LinkedList2} {hd b : Nat} {rest : List Nat}
    (hwf : WF2 st (hd :: b :: rest)) {item : Nat}
    (habs : item ∉ contentsOf2 st.heap (hd :: b :: rest)) {fuel : Nat}
    (hf : rest.length + 1 ≤ fuel) :
    st.remove item fuel = (.error .ElementNotFound, st) := by
  obtain ⟨hseg, hback, htail, hsize, hnd, hfr, hbound⟩ := hwf
  simp only [dllSeg_cons, Bool.and_eq_true, beq_iff_eq, true_and] at hseg
  obtain ⟨hhead, hnext, hseg2⟩ := hseg
  have hsz1 : ¬st.size < 1 := by
    rw [hsize]
    simp only [List.length_cons]
    omega
  have hhdne : ¬(st.heap hd).content = item := by
    intro hc
    exact habs (by simp [contentsOf2, hc])
  have hsegb : dllSeg st.heap (some b) (b :: rest) none = true := by
    simp only [dllSeg_cons, Bool.and_eq_true, beq_iff_eq, true_and]
    exact hseg2
  have habs2 : ∀ a ∈ b :: rest, (st.heap a).content ≠ item := by
    intro a ha hc
    refine habs ?_
    simp only [contentsOf2, List.map_cons, List.mem_cons]
    rcases List.mem_cons.mp ha with rfl | ha2
    · right; left; exact hc.symm
    · right; right; exact List.mem_map.mpr ⟨a, ha2, hc⟩
  have hloop := dllFindLoop_absent rest b fuel hsegb habs2 hf
  unfold LinkedList2.remove
  rw [if_neg hsz1, hhead]
  simp only [hhdne, ite_false, hnext, hloop]

/-- `remove` with a present handle on a well-formed doubly-linked list
returns `Ok`. -/
theorem dll_remove_present {st : LinkedList2} {l : List Nat} (hwf : WF2 st l)
    {item : Nat} (hmem : item ∈ contentsOf2 st.heap l) {fuel : Nat}
    (hf : l.length ≤ fuel) :
    (st.remove item fuel).1 = .ok () := by
  obtain ⟨hseg, hback, htail, hsize, hnd, hfr, hbound⟩ := hwf
  cases l with
  | nil => simp [contentsOf2] at hmem
  | cons hd rest =>
    have hsegc := hseg
    simp only [dllSeg_cons, Bool.and_eq_true, beq_iff_eq, true_and] at hsegc
    obtain ⟨hhead, hrest⟩ := hsegc
    have hsz1 : ¬st.size < 1 := by
      rw [hsize]
      simp only [List.length_cons]
      omega
    by_cases hhd : (st.heap hd).content = item
    · unfold LinkedList2.remove
      rw [if_neg hsz1, hhead]
      simp only [hhd, ite_true, if_pos]
    · have hmem2 : item ∈ contentsOf2 st.heap rest := by
        simp only [contentsOf2, List.map_cons, List.mem_cons] at hmem
        rcases hmem with hmem | hmem
        · exact absurd hmem.symm hhd
        · exact hmem
      obtain ⟨b, rest2, rfl⟩ : ∃ b rest2, rest = b :: rest2 := by
        cases rest with
        | nil => simp [contentsOf2] at hmem2
        | cons x xs => exact ⟨x, xs, rfl⟩
      simp only [dllSeg_cons, Bool.and_eq_true, beq_iff_eq, true_and] at hrest
      obtain ⟨hnext, hseg2⟩ := hrest
      have hsegb : dllSeg st.heap (some b) (b :: rest2) none = true := by
        simp only [dllSeg_cons, Bool.and_eq_true, beq_iff_eq, true_and]
        exact hseg2
      obtain ⟨X, target, Y, hsp, hloop, htc⟩ :=
        dllFindLoop_found rest2 b fuel hsegb hmem2
          (by simp only [List.length_cons] at hf; omega)
      have hlsp : hd :: b :: rest2 = (hd :: X) ++ target :: Y := by
        rw [List.cons_append, ← hsp]
      rcases List.eq_nil_or_concat (hd :: X) with hnil | ⟨Z, z, hzz⟩
      · simp at hnil
      · rw [List.concat_eq_append] at hzz
        have hlsp2 : hd :: b :: rest2 = Z ++ z :: target :: Y := by
          rw [hlsp, hzz]
          simp
        have hprev : (st.heap target).prev = some z := by
          refine dllBack_at Z z target Y none ?_
          rw [← hlsp2]
          exact hback
        have htailsome : ∃ t, st.tail = some t := by
          rw [htail]
          cases hgl : (hd :: b :: rest2).getLast? with
          | none => simp at hgl
          | some t => exact ⟨t, rfl⟩
        obtain ⟨t, ht⟩ := htailsome
        by_cases htt : t = target
        · unfold LinkedList2.remove
          rw [if_neg hsz1, hhead]
          simp only [hhd, ite_false, hnext, hloop, ht, htt, ite_true, if_pos, hprev]
        · have htmem : target ∈ hd :: b :: rest2 := by
            rw [hlsp]
            simp
          have hnexts : ∃ w, (st.heap target).next = some w := by
            refine dllSeg_next_of_mem_ne_last (hd :: b :: rest2) st.head hseg target
              htmem ?_
            rw [← htail, ht]
            intro hc
            exact htt (Option.some.inj hc).symm
          obtain ⟨w, hw⟩ := hnexts
          unfold LinkedList2.remove
          rw [if_neg hsz1, hhead]
          simp only [hhd, ite_false, hnext, hloop, ht, htt, ite_false, hprev, hw]

instance instDecWF1 (st : LinkedList) (l : List Nat) : Decidable (WF1 st l) := by
  unfold WF1
  infer_instance

instance instDecWF2 (st : LinkedList2) (l : List Nat) : Decidable (WF2 st l) := by
  unfold WF2
  infer_instance

/-- C3 (amended).  For both implementations and every well-formed list: when
`index = 0`, or `1 ≤ index < size - 1`, `insert_at(item, index)` succeeds, the
forward iteration sequence becomes the old sequence with `item` inserted at
position `index` (each element previously at position `j ≥ index` moves to
`j + 1`), and `get(index)` returns the inserted handle.  When
`index = size - 1 ≥ 1`, however, both implementations append the item after
the current tail instead of inserting it at position `size - 1`. -/
theorem claim_C3 :
    (∀ (st : LinkedList) (l : List Nat) (item i fuel : Nat),
      WF1 st l → (i = 0 ∧ l ≠ [] ∨ 1 ≤ i ∧ i + 1 < l.length) →
      (l.length : Int) + 1 < I63 → l.length + 1 ≤ fuel →
      (st.insert_at item (i : Int)).1 = .ok () ∧
      (st.insert_at item (i : Int)).2.elems fuel =
        (contentsOf1 st.heap l).take i ++ item :: (contentsOf1 st.heap l).drop i ∧
      (st.insert_at item (i : Int)).2.get (i : Int) fuel = .ok item) ∧
    (∀ (st : LinkedList) (l : List Nat) (item i fuel : Nat),
      WF1 st l → 1 ≤ i → i = l.length - 1 → (l.length : Int) + 1 < I63 →
      l.length + 1 ≤ fuel →
      (st.insert_at item (i : Int)).1 = .ok () ∧
      (st.insert_at item (i : Int)).2.elems fuel = contentsOf1 st.heap l ++ [item]) ∧
    (∀ (st2 : LinkedList2) (l : List Nat) (item i fuel : Nat),
      WF2 st2 l → (i = 0 ∧ l ≠ [] ∨ 1 ≤ i ∧ i + 1 < l.length) →
      l.length + 1 < USZM → l.length + 1 ≤ fuel →
      (st2.insert_at item i).1 = .ok () ∧
      (st2.insert_at item i).2.elems fuel =
        (contentsOf2 st2.heap l).take i ++ item :: (contentsOf2 st2.heap l).drop i ∧
      (st2.insert_at item i).2.get i fuel = .ok item) ∧
    (∀ (st2 : LinkedList2) (l : List Nat) (item i fuel : Nat),
      WF2 st2 l → 1 ≤ i → i = l.length - 1 → l.length + 1 < USZM →
      l.length + 1 ≤ fuel →
      (st2.insert_at item i).1 = .ok () ∧
      (st2.insert_at item i).2.elems fuel = contentsOf2 st2.heap l ++ [item]) := by
  refine ⟨?_, ?_, ?_, ?_⟩
  · intro st l item i fuel hwf hcase hlen hf
    exact sll_insert_at_ins hwf item hcase hlen hf
  · intro st l item i fuel hwf hi1 hilast hlen hf
    exact sll_insert_at_last hwf item hi1 hilast hlen hf
  · intro st2 l item i fuel hwf hcase hlen hf
    exact dll_insert_at_ins hwf item hcase hlen hf
  · intro st2 l item i fuel hwf hi1 hilast hlen hf
    exact dll_insert_at_last hwf item hi1 hilast hlen hf

theorem claim_C3_witness :
    WF1 sllTwo [1, 3] ∧ WF2 dllTwo [1, 3] ∧
    (sllTwo.insert_at 9 ((0 : Nat) : Int)).1 = .ok () ∧
    (sllTwo.insert_at 9 ((0 : Nat) : Int)).2.get ((0 : Nat) : Int) 3 = .ok 9 ∧
    (sllTwo.insert_at 9 ((1 : Nat) : Int)).2.elems 3 =
      contentsOf1 sllTwo.heap [1, 3] ++ [9] ∧
    (dllTwo.insert_at 9 0).1 = .ok () ∧
    (dllTwo.insert_at 9 0).2.get 0 3 = .ok 9 ∧
    (dllTwo.insert_at 9 1).2.elems 3 = contentsOf2 dllTwo.heap [1, 3] ++ [9] := by
  refine ⟨by decide, by decide, ?_, ?_, ?_, ?_, ?_, ?_⟩
  · exact (claim_C3.1 sllTwo [1, 3] 9 0 3 (by decide) (by decide) (by decide)
      (by decide)).1
  · exact (claim_C3.1 sllTwo [1, 3] 9 0 3 (by decide) (by decide) (by decide)
      (by decide)).2.2
  · exact (claim_C3.2.1 sllTwo [1, 3] 9 1 3 (by decide) (by decide) (by decide)
      (by decide) (by decide)).2
  · exact (claim_C3.2.2.1 dllTwo [1, 3] 9 0 3 (by decide) (by decide) (by decide)
      (by decide)).1
  · exact (claim_C3.2.2.1 dllTwo [1, 3] 9 0 3 (by decide) (by decide) (by decide)
      (by decide)).2.2
  · exact (claim_C3.2.2.2 dllTwo [1, 3] 9 1 3 (by decide) (by decide) (by decide)
      (by decide) (by decide)).2

/-- C5 (amended).  On an empty list (`size == 0`) `remove` fails with
`UnexpectedError` in both implementations (not `OperationOnEmptyList`).  With
no identity-equal node present: the singly-linked implementation fails with
`UnexpectedError` (its search loop runs off the end of the chain; the
`ElementNotFound` branch is dead code), while the doubly-linked implementation
fails with `ElementNotFound` when `size ≥ 2` but with `UnexpectedError` when
`size == 1`.  With the item present, `remove` returns `Ok` in both. -/
theorem claim_C5 :
    (∀ (st : LinkedList) (item fuel : Nat), WF1 st [] →
      st.remove item fuel = (.error .UnexpectedError, st)) ∧
    (∀ (st : LinkedList) (l : List Nat) (item fuel : Nat), WF1 st l → l ≠ [] →
      item ∉ contentsOf1 st.heap l → l.length ≤ fuel →
      st.remove item fuel = (.error .UnexpectedError, st)) ∧
    (∀ (st : LinkedList) (l : List Nat) (item fuel : Nat), WF1 st l →
      item ∈ contentsOf1 st.heap l → l.length ≤ fuel →
      (st.remove item fuel).1 = .ok ()) ∧
    (∀ (st2 : LinkedList2) (item fuel : Nat), WF2 st2 [] →
      st2.remove item fuel = (.error .UnexpectedError, st2)) ∧
    (∀ (st2 : LinkedList2) (hd item fuel : Nat), WF2 st2 [hd] →
      item ∉ contentsOf2 st2.heap [hd] → 1 ≤ fuel →
      st2.remove item fuel = (.error .UnexpectedError, st2)) ∧
    (∀ (st2 : LinkedList2) (hd b : Nat) (rest : List Nat) (item fuel : Nat),
      WF2 st2 (hd :: b :: rest) → item ∉ contentsOf2 st2.heap (hd :: b :: rest) →
      rest.length + 1 ≤ fuel →
      st2.remove item fuel = (.error .ElementNotFound, st2)) ∧
    (∀ (st2 : LinkedList2) (l : List Nat) (item fuel : Nat), WF2 st2 l →
      item ∈ contentsOf2 st2.heap l → l.length ≤ fuel →
      (st2.remove item fuel).1 = .ok ()) := by
  refine ⟨?_, ?_, ?_, ?_, ?_, ?_, ?_⟩
  · intro st item fuel hwf
    exact sll_remove_empty hwf item fuel
  · intro st l item fuel hwf hne habs hf
    exact sll_remove_absent hwf hne habs hf
  · intro st l item fuel hwf hmem hf
    exact sll_remove_present hwf hmem hf
  · intro st2 item fuel hwf
    exact dll_remove_empty hwf item fuel
  · intro st2 hd item fuel hwf habs hf
    exact dll_remove_absent_one hwf habs hf
  · intro st2 hd b rest item fuel hwf habs hf
    exact dll_remove_absent_big hwf habs hf
  · intro st2 l item fuel hwf hmem hf
    exact dll_remove_present hwf hmem hf

theorem claim_C5_witness :
    WF1 LinkedList.new [] ∧ WF1 sllTwo [1, 3] ∧ WF2 dllOne [1] ∧
    WF2 dllThree [1, 3, 5] ∧ WF2 dllTwo [1, 3] ∧
    LinkedList.new.remove 5 1 = (.error .UnexpectedError, LinkedList.new) ∧
    sllTwo.remove 9 2 = (.error .UnexpectedError, sllTwo) ∧
    (sllTwo.remove 2 2).1 = .ok () ∧
    LinkedList2.new.remove 5 1 = (.error .UnexpectedError, LinkedList2.new) ∧
    dllOne.remove 9 1 = (.error .UnexpectedError, dllOne) ∧
    dllThree.remove 9 2 = (.error .ElementNotFound, dllThree) ∧
    (dllTwo.remove 2 2).1 = .ok () := by
  refine ⟨by decide, by decide, by decide, by decide, by decide, ?_, ?_, ?_, ?_, ?_, ?_, ?_⟩
  · exact claim_C5.1 LinkedList.new 5 1 (by decide)
  · exact claim_C5.2.1 sllTwo [1, 3] 9 2 (by decide) (by decide) (by decide) (by decide)
  · exact claim_C5.2.2.1 sllTwo [1, 3] 2 2 (by decide) (by decide) (by decide)
  · exact claim_C5.2.2.2.1 LinkedList2.new 5 1 (by decide)
  · exact claim_C5.2.2.2.2.1 dllOne 1 9 1 (by decide) (by decide) (by decide)
  · exact claim_C5.2.2.2.2.2.1 dllThree 1 3 [5] 9 2 (by decide) (by decide) (by decide)
  · exact claim_C5.2.2.2.2.2.2 dllTwo [1, 3] 2 2 (by decide) (by decide) (by decide)

/-- C6.  For both implementations, `get`, `remove_at` and `insert_at` called
with `index == size` (or a negative index, expressible only for the
singly-linked `i64` index) fail with `IndexOutOfBounds` and return the state
unchanged: `index_check` rejects the index before any mutation. -/
theorem claim_C6 :
    (∀ (st : LinkedList) (i : Int) (item fuel : Nat), (i = st.size ∨ i < 0) →
      st.get i fuel = .error .IndexOutOfBounds ∧
      st.insert_at item i = (.error .IndexOutOfBounds, st) ∧
      st.remove_at i = (.error .IndexOutOfBounds, st)) ∧
    (∀ (st2 : LinkedList2) (item fuel : Nat),
      st2.get st2.size fuel = .error .IndexOutOfBounds ∧
      st2.insert_at item st2.size = (.error .IndexOutOfBounds, st2) ∧
      st2.remove_at st2.size = (.error .IndexOutOfBounds, st2)) := by
  constructor
  · intro st i item fuel hip
    have hchk : st.index_check i = .error .IndexOutOfBounds := by
      unfold LinkedList.index_check
      rcases hip with rfl | h
      · rw [if_pos (Or.inr (le_refl _))]
      · rw [if_pos (Or.inl h)]
    refine ⟨?_, ?_, ?_⟩
    · unfold LinkedList.get
      simp only [hchk]
    · unfold LinkedList.insert_at
      simp only [hchk]
    · unfold LinkedList.remove_at
      simp only [hchk]
  · intro st2 item fuel
    have hchk : st2.index_check st2.size = .error .IndexOutOfBounds := by
      unfold LinkedList2.index_check
      rw [if_pos (le_refl _)]
    refine ⟨?_, ?_, ?_⟩
    · unfold LinkedList2.get
      simp only [hchk]
    · unfold LinkedList2.insert_at
      simp only [hchk]
    · unfold LinkedList2.remove_at
      simp only [hchk]

theorem claim_C6_witness :
    ((1 : Int) = sllOne.size ∨ (1 : Int) < 0) ∧
    sllOne.get 1 4 = .error .IndexOutOfBounds ∧
    sllOne.insert_at 7 1 = (.error .IndexOutOfBounds, sllOne) ∧
    sllOne.remove_at 1 = (.error .IndexOutOfBounds, sllOne) ∧
    dllOne.get dllOne.size 4 = .error .IndexOutOfBounds ∧
    dllOne.insert_at 7 dllOne.size = (.error .IndexOutOfBounds, dllOne) ∧
    dllOne.remove_at dllOne.size = (.error .IndexOutOfBounds, dllOne) := by
  refine ⟨by decide, ?_, ?_, ?_, ?_, ?_, ?_⟩
  · exact (claim_C6.1 sllOne 1 7 4 (by decide)).1
  · exact (claim_C6.1 sllOne 1 7 4 (by decide)).2.1
  · exact (claim_C6.1 sllOne 1 7 4 (by decide)).2.2
  · exact (claim_C6.2 dllOne 7 4).1
  · exact (claim_C6.2 dllOne 7 4).2.1
  · exact (claim_C6.2 dllOne 7 4).2.2

/-- C7 (amended).  From the Empty state a first `add(item)` succeeds and
yields the Singleton state in both implementations (head and tail are the same
new node, size is 1, iteration yields exactly the item); a first
`insert_at(item, 0)` on the Empty state does not succeed: it fails with
`IndexOutOfBounds` (valid insert indices satisfy `index < size`), leaving the
list Empty. -/
theorem claim_C7 :
    (∀ (st : LinkedList) (item : Nat), WF1 st [] →
      (st.add item).head = some st.fresh ∧ (st.add item).tail = some st.fresh ∧
      (st.add item).size = 1 ∧ (st.add item).elems 1 = [item]) ∧
    (∀ (st2 : LinkedList2) (item : Nat), WF2 st2 [] →
      (st2.add item).head = some st2.fresh ∧ (st2.add item).tail = some st2.fresh ∧
      (st2.add item).size = 1 ∧ (st2.add item).elems 1 = [item]) ∧
    (∀ (st : LinkedList) (item : Nat), WF1 st [] →
      st.insert_at item 0 = (.error .IndexOutOfBounds, st)) ∧
    (∀ (st2 : LinkedList2) (item : Nat), WF2 st2 [] →
      st2.insert_at item 0 = (.error .IndexOutOfBounds, st2)) := by
  refine ⟨?_, ?_, ?_, ?_⟩
  · intro st item hwf
    have htail : st.tail = none := by simpa using hwf.2.1
    have hsize : st.size = 0 := by simpa using hwf.2.2.1
    rw [sll_add_eq_of_no_tail htail]
    refine ⟨rfl, rfl, ?_, ?_⟩
    · simp only [hsize]
      decide
    · simp [LinkedList.elems, sllChain, hset1]
  · intro st2 item hwf
    have htail : st2.tail = none := by simpa using hwf.2.2.1
    have hsize : st2.size = 0 := by simpa using hwf.2.2.2.1
    rw [dll_add_eq_of_no_tail htail]
    refine ⟨rfl, rfl, ?_, ?_⟩
    · simp only [hsize]
      decide
    · simp [LinkedList2.elems, dllChain, hset2]
  · intro st item hwf
    have hsize : st.size = 0 := by simpa using hwf.2.2.1
    have hchk : st.index_check 0 = .error .IndexOutOfBounds := by
      unfold LinkedList.index_check
      rw [hsize]
      norm_num
    unfold LinkedList.insert_at
    simp only [hchk]
  · intro st2 item hwf
    have hsize : st2.size = 0 := by simpa using hwf.2.2.2.1
    have hchk : st2.index_check 0 = .error .IndexOutOfBounds := by
      unfold LinkedList2.index_check
      rw [hsize]
      norm_num
    unfold LinkedList2.insert_at
    simp only [hchk]

theorem claim_C7_witness :
    WF1 LinkedList.new [] ∧ WF2 LinkedList2.new [] ∧
    (LinkedList.new.add 7).head = some LinkedList.new.fresh ∧
    (LinkedList.new.add 7).size = 1 ∧
    (LinkedList.new.add 7).elems 1 = [7] ∧
    (LinkedList2.new.add 7).head = some LinkedList2.new.fresh ∧
    (LinkedList2.new.add 7).size = 1 ∧
    LinkedList.new.insert_at 7 0 = (.error .IndexOutOfBounds, LinkedList.new) ∧
    LinkedList2.new.insert_at 7 0 = (.error .IndexOutOfBounds, LinkedList2.new) := by
  refine ⟨by decide, by decide, ?_, ?_, ?_, ?_, ?_, ?_, ?_⟩
  · exact (claim_C7.1 LinkedList.new 7 (by decide)).1
  · exact (claim_C7.1 LinkedList.new 7 (by decide)).2.2.1
  · exact (claim_C7.1 LinkedList.new 7 (by decide)).2.2.2
  · exact (claim_C7.2.1 LinkedList2.new 7 (by decide)).1
  · exact (claim_C7.2.1 LinkedList2.new 7 (by decide)).2.2.1
  · exact claim_C7.2.2.1 LinkedList.new 7 (by decide)
  · exact claim_C7.2.2.2 LinkedList2.new 7 (by decide)

/-- C8 (amended).  `pop()` on an empty list fails with `OperationOnEmptyList`
in the doubly-linked implementation; in the singly-linked implementation it
fails with `IndexOutOfBounds`, because the non-singleton branch calls
`get_node_at(size - 2)` whose bounds check fires on `-2` (not with
`UnexpectedError` as claimed).  The state is unchanged in both. -/
theorem claim_C8 :
    (∀ st2 : LinkedList2, WF2 st2 [] →
      st2.pop = (.error .OperationOnEmptyList, st2)) ∧
    (∀ st : LinkedList, WF1 st [] →
      st.pop = (.error .IndexOutOfBounds, st)) := by
  constructor
  · intro st2 hwf
    have htail : st2.tail = none := by simpa using hwf.2.2.1
    unfold LinkedList2.pop
    simp only [htail]
  · intro st hwf
    have hsize : st.size = 0 := by simpa using hwf.2.2.1
    have hgn : st.get_node_at (st.size - 2) = .error .IndexOutOfBounds := by
      unfold LinkedList.get_node_at LinkedList.index_check
      rw [hsize]
      norm_num
    unfold LinkedList.pop
    rw [if_neg (by rw [hsize]; norm_num)]
    simp only [hgn]

theorem claim_C8_witness :
    WF2 LinkedList2.new [] ∧ WF1 LinkedList.new [] ∧
    LinkedList2.new.pop = (.error .OperationOnEmptyList, LinkedList2.new) ∧
    LinkedList.new.pop = (.error .IndexOutOfBounds, LinkedList.new) := by
  refine ⟨by decide, by decide, ?_, ?_⟩
  · exact claim_C8.1 LinkedList2.new (by decide)
  · exact claim_C8.2 LinkedList.new (by decide)

/-- C9.  In both implementations `contains(h)` is true exactly when some node
stores a content handle identity-equal to `h`; in particular any handle whose
identity differs from every stored handle — such as a freshly allocated handle
wrapping an equal value — is not found. -/
theorem claim_C9 :
    (∀ (st : LinkedList) (l : List Nat) (item fuel : Nat), WF1 st l →
      l.length ≤ fuel →
      (st.contains item fuel = true ↔ item ∈ contentsOf1 st.heap l)) ∧
    (∀ (st2 : LinkedList2) (l : List Nat) (item fuel : Nat), WF2 st2 l →
      l.length ≤ fuel →
      (st2.contains item fuel = true ↔ item ∈ contentsOf2 st2.heap l)) := by
  constructor
  · intro st l item fuel hwf hf
    exact sll_contains_spec hwf item hf
  · intro st2 l item fuel hwf hf
    exact dll_contains_spec hwf item hf

theorem claim_C9_witness :
    WF1 sllTwo [1, 3] ∧ WF2 dllTwo [1, 3] ∧
    (sllTwo.contains 2 2 = true ↔ 2 ∈ contentsOf1 sllTwo.heap [1, 3]) ∧
    (sllTwo.contains 9 2 = true ↔ 9 ∈ contentsOf1 sllTwo.heap [1, 3]) ∧
    (dllTwo.contains 2 2 = true ↔ 2 ∈ contentsOf2 dllTwo.heap [1, 3]) ∧
    (dllTwo.contains 9 2 = true ↔ 9 ∈ contentsOf2 dllTwo.heap [1, 3]) := by
  refine ⟨by decide, by decide, ?_, ?_, ?_, ?_⟩
  · exact claim_C9.1 sllTwo [1, 3] 2 2 (by decide) (by decide)
  · exact claim_C9.1 sllTwo [1, 3] 9 2 (by decide) (by decide)
  · exact claim_C9.2 dllTwo [1, 3] 2 2 (by decide) (by decide)
  · exact claim_C9.2 dllTwo [1, 3] 9 2 (by decide) (by decide)
